import Mathlib

/-!
Verification development for the crypto-flow exchange-connectivity gateway.

This file shallowly embeds the parts of the Rust sources that the checked
properties are about:

* `src/binance/src/market.rs` — the `Market` component: client sinks,
  per-client `Subscriber` registry, reference-counted upstream symbol
  subscriptions, the pending-request table, and the handlers
  `handle_connect` / `handle_login` / `handle_subscribe` / `handle_close` /
  `handle_success` / `handle_error`.
* `src/binance/src/subscriber.rs` — the `Subscriber` structure.
* `src/binance/src/model/user_data.rs` — `UserDataStreamState`.
* `src/binance/src/handler.rs` — the client-method routing table and the
  `get_products` handler.
* `src/websocket/src/exchange.rs` and `src/websocket/src/client.rs` —
  signing-payload construction for `session.logon`, `build_signed_request`
  and `wsapi_call_signed`, and the `connect` error path.
* `src/binance/src/model/mod.rs` and `src/binance/src/model/order.rs` —
  the `ExecutionReport` → `Order` and `OrderUpdate` → `SOrder` projections.

Maps (`HashMap`, `BTreeMap`, `serde_json::Map`) are embedded as association
lists with key-update-in-place semantics; `HashSet` is embedded as a
duplicate-free list.  Machine integers (`u16`, `u32`, `i64`, `u64`) are
embedded as `Nat`/`Int`; overflow is modelled explicitly where a claim
depends on it (the `u64` parse bound, the low-32-bit mask).  I/O effects
(frames written to the upstream socket, messages written to a strategy
client's sink) are embedded as explicit output lists.
-/

namespace CryptoFlow

/-! ## Association-list maps

Embedding of the Rust map types.  `ainsert` replaces any existing binding of
the key, like `HashMap::insert` / `BTreeMap::insert`. -/

variable {α β : Type}

def afind? [DecidableEq α] : List (α × β) → α → Option β
  | [], _ => none
  | (k', v) :: rest, k => if k' = k then some v else afind? rest k

def aerase [DecidableEq α] (m : List (α × β)) (k : α) : List (α × β) :=
  m.filter (fun p => decide (p.1 ≠ k))

def ainsert [DecidableEq α] (m : List (α × β)) (k : α) (v : β) : List (α × β) :=
  (k, v) :: aerase m k

def acontains [DecidableEq α] (m : List (α × β)) (k : α) : Bool :=
  (afind? m k).isSome

def akeys (m : List (α × β)) : List α := m.map Prod.fst

def ANodupKeys (m : List (α × β)) : Prop := (akeys m).Nodup


/-! ## String utilities

Structural (kernel-evaluable) embeddings of `str::contains` and
`str::replace` as used by `Market::handle_subscribe` and
`Market::handle_close`.  `replaceFrom` uses explicit fuel so that it is
structurally recursive; `s.length` fuel is always enough because each
recursive step consumes at least one character. -/

def charsHavePrefix : List Char → List Char → Bool
  | [], _ => true
  | _ :: _, [] => false
  | a :: as, b :: bs => a = b && charsHavePrefix as bs

def charsHaveInfix : List Char → List Char → Bool
  | pat, [] => charsHavePrefix pat []
  | pat, c :: rest => charsHavePrefix pat (c :: rest) || charsHaveInfix pat rest

def replaceFrom : Nat → List Char → List Char → List Char → List Char
  | 0, s, _, _ => s
  | _ + 1, [], _, _ => []
  | fuel + 1, c :: rest, pat, rep =>
    if pat ≠ [] ∧ charsHavePrefix pat (c :: rest) then
      rep ++ replaceFrom fuel ((c :: rest).drop pat.length) pat rep
    else c :: replaceFrom fuel rest pat rep

/-- Embedding of Rust `str::replace` (replace every non-overlapping
occurrence, left to right). -/
def strReplace (s pat rep : String) : String :=
  ⟨replaceFrom s.data.length s.data pat.data rep.data⟩

/-- Embedding of Rust `str::contains` (substring test). -/
def strContainsSub (s pat : String) : Bool :=
  charsHaveInfix pat.data s.data

/-! ## Wire-model types (`src/src/chat.rs`) -/

/-- `Login` params from `chat.rs` (`session_id: u16, name: Option<String>,
trading: bool`). -/
structure Login where
  session_id : Nat
  name : Option String
  trading : Bool
deriving DecidableEq

/-- Modelled from the spec: the numeric error-code constants of
`cryptoflow::error_code` (`NOT_LOGIN`, `DISCONNECTED`) — the module is
declared in `src/src/lib.rs` but its file is not part of the sources, so the
codes are embedded as an enumerated type rather than as `i32` values. -/
inductive ErrCode where
  | NOT_LOGIN
  | DISCONNECTED
deriving DecidableEq

/-- `Error { code, msg }` from `chat.rs`. -/
structure ChatError where
  code : ErrCode
  msg : String
deriving DecidableEq

/-! ## Subscriber (`src/binance/src/subscriber.rs`)

`symbols` embeds the `HashSet<String>` as a duplicate-free list;
`exchange_reqid_to_client_reqid` embeds the `HashMap<i64, i64>`. -/

structure Subscriber where
  symbols : List String
  exchange_reqid_to_client_reqid : List (Int × Int)
deriving DecidableEq

namespace Subscriber

def new : Subscriber := ⟨[], []⟩

/-- `Subscriber::is_subscribed`. -/
def is_subscribed (sub : Subscriber) (symbol : String) : Bool :=
  sub.symbols.contains symbol

/-- `Subscriber::on_strategy_client_subscribe`: record the id mapping and
extend the symbol set (`HashSet::extend`: each element added if absent). -/
def on_strategy_client_subscribe (sub : Subscriber) (exchange_req_id client_req_id : Int)
    (symbols : List String) : Subscriber :=
  { sub with
    exchange_reqid_to_client_reqid :=
      ainsert sub.exchange_reqid_to_client_reqid exchange_req_id client_req_id
    symbols := symbols.foldl (fun acc s => if acc.contains s then acc else acc ++ [s]) sub.symbols }

end Subscriber

/-! ## Market (`src/binance/src/market.rs`)

`txs` (the map from client address to outbound sink) is embedded as the
list of registered addresses — a sink's identity is its address.  Frames
sent upstream and messages sent to client sinks are collected in an output
list.  The `SET_PROPERTY` call issued once by `Market::new` goes through
`wsapi_call` directly (not `Market::send`) and touches neither `requests`
nor `id`, so it is not part of the model. -/

/-- Body of a message sent to a strategy-client sink. -/
inductive ReplyBody where
  /-- `handle_login` echoes the login params back (`Response { id, result: params }`). -/
  | loginEcho (l : Login)
  /-- an `Error { code, msg }` reply built by the market itself. -/
  | err (e : ChatError)
  /-- a forwarded exchange success (`Response<Option<i64>>`) with rewritten id. -/
  | successFwd (result : Option Int)
  /-- a forwarded exchange error (`ErrorResponse`) with rewritten id. -/
  | errorFwd (e : ChatError)
  /-- a `get_products` reply: the product metadata values (metadata opaque). -/
  | products (ps : List String)
deriving DecidableEq

/-- An observable effect of a market operation. -/
inductive MOut where
  /-- a frame sent to the exchange by `wsapi_call` via `Market::send`. -/
  | upstream (method : String) (params : List String) (id : Int)
  /-- a message sent to the sink of strategy client `addr`. -/
  | toClient (addr : Nat) (id : Int) (body : ReplyBody)
deriving DecidableEq

structure Market where
  /-- addresses with a registered sink (`txs: HashMap<SocketAddr, Sender>`). -/
  txs : List Nat
  /-- `subscribers: HashMap<SocketAddr, Subscriber>`. -/
  subscribers : List (Nat × Subscriber)
  /-- `symbols: HashMap<String, u16>` — upstream subscription refcounts. -/
  symbols : List (String × Nat)
  /-- `requests: HashMap<i64, SocketAddr>` — the pending-request table. -/
  requests : List (Int × Nat)
  /-- `id: i64` — the next request id. -/
  id : Int
deriving DecidableEq

namespace Market

/-- The state `Market::new` produces (before any client operation):
empty maps, `id = 1`. -/
def init : Market := ⟨[], [], [], [], 1⟩

/-- `Market::send`: build `Request { id, method, params }`, send it via
`wsapi_call`, record `requests[id] = addr`, increment `id`. -/
def send (m : Market) (addr : Nat) (method : String) (params : List String) :
    Market × MOut × Int :=
  ({ m with requests := ainsert m.requests m.id addr, id := m.id + 1 },
   .upstream method params m.id, m.id)

/-- `Market::reply`: send `Response { id, result }` to the client's sink —
only when the sink is registered. -/
def reply (m : Market) (addr : Nat) (id : Int) (body : ReplyBody) : List MOut :=
  if m.txs.contains addr then [.toClient addr id body] else []

/-- `Market::handle_connect`: record the client sink. -/
def handle_connect (m : Market) (addr : Nat) : Market :=
  { m with txs := if m.txs.contains addr then m.txs else addr :: m.txs }

/-- `Market::validate_login`. -/
def validate_login (m : Market) (addr : Nat) : Bool :=
  acontains m.subscribers addr

/-- `Market::handle_login`: if the sink is registered and the client has no
subscriber yet, create one; then echo the params back. -/
def handle_login (m : Market) (addr : Nat) (reqId : Int) (l : Login) :
    Market × List MOut :=
  let m :=
    if m.txs.contains addr && !(acontains m.subscribers addr) then
      { m with subscribers := ainsert m.subscribers addr Subscriber.new }
    else m
  (m, m.reply addr reqId (.loginEcho l))

/-- The symbol rewrite inside `Market::handle_subscribe`:
`kline:X` → `kline_X`, `bbo` → `bookTicker`, `depth` → `depth20` with
`:` → `@`. -/
def normalizeSymbol (s : String) : String :=
  if strContainsSub s "kline" then strReplace s ":" "_"
  else if strContainsSub s "bbo" then strReplace s "bbo" "bookTicker"
  else if strContainsSub s "depth" then strReplace (strReplace s "depth" "depth20") ":" "@"
  else s

/-- The per-request loop of `Market::handle_subscribe`: skip streams the
subscriber already holds under the requested string, rewrite the rest,
bump their refcounts, and collect them.  `subSyms` is the subscriber's
symbol set, which the Rust loop only reads (`is_subscribed`); it is
extended afterwards by `on_strategy_client_subscribe`. -/
def collectLoop (subSyms : List String) :
    List (String × Nat) → List String → List (String × Nat) × List String
  | syms, [] => (syms, [])
  | syms, s :: rest =>
    if subSyms.contains s then collectLoop subSyms syms rest
    else
      let n := normalizeSymbol s
      let syms' :=
        match afind? syms n with
        | some cnt => ainsert syms n (cnt + 1)
        | none => ainsert syms n 1
      let out := collectLoop subSyms syms' rest
      (out.1, n :: out.2)

/-- `Market::handle_subscribe`. -/
def handle_subscribe (m : Market) (addr : Nat) (reqId : Int) (streams : List String) :
    Market × List MOut :=
  if !(m.validate_login addr) then
    (m, m.reply addr reqId (.err ⟨ErrCode.NOT_LOGIN, "please login first"⟩))
  else
    match afind? m.subscribers addr with
    | none => (m, [])
    | some sub =>
      let res := collectLoop sub.symbols m.symbols streams
      let m1 := { m with symbols := res.1 }
      let sent := m1.send addr "SUBSCRIBE" res.2
      let m2 := sent.1
      let m3 :=
        { m2 with
          subscribers :=
            ainsert m2.subscribers addr
              (sub.on_strategy_client_subscribe sent.2.2 reqId res.2) }
      (m3, [sent.2.1])

/-- The unsubscribe loop of `Market::handle_close`: for each symbol the
departing subscriber held, decrement its refcount; a count that reaches
zero is removed from the map and its name (with `:` replaced by `_`) is
appended to the `UNSUBSCRIBE` batch. -/
def closeLoop : List (String × Nat) → List String → List (String × Nat) × List String
  | syms, [] => (syms, [])
  | syms, s :: rest =>
    match afind? syms s with
    | some cnt =>
      let cnt' := cnt - 1
      if cnt' = 0 then
        let out := closeLoop (aerase syms s) rest
        (out.1, strReplace s ":" "_" :: out.2)
      else closeLoop (ainsert syms s cnt') rest
    | none => closeLoop syms rest

/-- `Market::handle_close`. -/
def handle_close (m : Market) (addr : Nat) : Market × List MOut :=
  if m.txs.contains addr then
    let m1 := { m with txs := m.txs.erase addr }
    match afind? m1.subscribers addr with
    | some sub =>
      let m2 := { m1 with subscribers := aerase m1.subscribers addr }
      let res := closeLoop m2.symbols sub.symbols
      let m3 := { m2 with symbols := res.1 }
      if res.2 ≠ [] then
        let sent := m3.send addr "UNSUBSCRIBE" res.2
        (sent.1, [sent.2.1])
      else (m3, [])
    | none => (m1, [])
  else (m, [])

/-- `Subscriber::on_exchange_response` lifted to the market: rewrite the id
and forward, consuming the id mapping. -/
def on_exchange_response (sub : Subscriber) (addr : Nat) (respId : Int)
    (result : Option Int) : Subscriber × List MOut :=
  match afind? sub.exchange_reqid_to_client_reqid respId with
  | some clientId =>
    let idMap := aerase sub.exchange_reqid_to_client_reqid respId
    ({ sub with exchange_reqid_to_client_reqid := idMap },
     [.toClient addr clientId (.successFwd result)])
  | none => (sub, [])

/-- `Subscriber::on_exchange_error` lifted to the market. -/
def on_exchange_error (sub : Subscriber) (addr : Nat) (respId : Int)
    (e : ChatError) : Subscriber × List MOut :=
  match afind? sub.exchange_reqid_to_client_reqid respId with
  | some clientId =>
    let idMap := aerase sub.exchange_reqid_to_client_reqid respId
    ({ sub with exchange_reqid_to_client_reqid := idMap },
     [.toClient addr clientId (.errorFwd e)])
  | none => (sub, [])

/-- `Market::handle_success`: look up and remove the pending request, then
forward through the originating subscriber. -/
def handle_success (m : Market) (respId : Int) (result : Option Int) :
    Market × List MOut :=
  match afind? m.requests respId with
  | some index =>
    let m1 := { m with requests := aerase m.requests respId }
    match afind? m1.subscribers index with
    | some sub =>
      let fwd := on_exchange_response sub index respId result
      ({ m1 with subscribers := ainsert m1.subscribers index fwd.1 }, fwd.2)
    | none => (m1, [])
  | none => (m, [])

/-- `Market::handle_error`. -/
def handle_error (m : Market) (respId : Int) (e : ChatError) :
    Market × List MOut :=
  match afind? m.requests respId with
  | some index =>
    let m1 := { m with requests := aerase m.requests respId }
    match afind? m1.subscribers index with
    | some sub =>
      let fwd := on_exchange_error sub index respId e
      ({ m1 with subscribers := ainsert m1.subscribers index fwd.1 }, fwd.2)
    | none => (m1, [])
  | none => (m, [])

end Market

/-- One market-level operation: a strategy-client action or an exchange
reply delivered to `Market::process`. -/
inductive MOp where
  | connect (addr : Nat)
  | login (addr : Nat) (reqId : Int) (l : Login)
  | subscribe (addr : Nat) (reqId : Int) (streams : List String)
  | close (addr : Nat)
  | success (respId : Int) (result : Option Int)
  | error (respId : Int) (e : ChatError)
deriving DecidableEq

namespace Market

def step (m : Market) : MOp → Market × List MOut
  | .connect a => (m.handle_connect a, [])
  | .login a i l => m.handle_login a i l
  | .subscribe a i ss => m.handle_subscribe a i ss
  | .close a => m.handle_close a
  | .success i r => m.handle_success i r
  | .error i e => m.handle_error i e

def run (m : Market) : List MOp → Market × List MOut
  | [] => (m, [])
  | op :: rest =>
    let r1 := m.step op
    let r2 := r1.1.run rest
    (r2.1, r1.2 ++ r2.2)

end Market

/-! ## User-data-stream accounting (`src/binance/src/model/user_data.rs`) -/

structure UserDataStreamState where
  /-- `active_subscriptions: Vec<u32>`. -/
  active_subscriptions : List Nat
  /-- `max_concurrent_subscriptions: u32` (1000 in the default state). -/
  max_concurrent_subscriptions : Nat
  /-- `max_lifetime_subscriptions: u32` (65535 in the default state). -/
  max_lifetime_subscriptions : Nat
  /-- `lifetime_subscription_count: u32`. -/
  lifetime_subscription_count : Nat
deriving DecidableEq

namespace UserDataStreamState

/-- `impl Default for UserDataStreamState`. -/
def mkDefault : UserDataStreamState := ⟨[], 1000, 65535, 0⟩

/-- `UserDataStreamState::can_create_subscription`. -/
def can_create_subscription (s : UserDataStreamState) : Bool :=
  decide (s.active_subscriptions.length < s.max_concurrent_subscriptions) &&
    decide (s.lifetime_subscription_count < s.max_lifetime_subscriptions)

/-- `UserDataStreamState::add_subscription`.  The Rust method mutates
`&mut self` and returns `Result<(), String>`; the early `return Err(...)`
happens before any mutation, so the error case leaves the state unchanged. -/
def add_subscription (s : UserDataStreamState) (subscription_id : Nat) :
    Except String UserDataStreamState :=
  if !s.can_create_subscription then .error "达到订阅限制"
  else
    .ok { s with
          active_subscriptions := s.active_subscriptions ++ [subscription_id]
          lifetime_subscription_count := s.lifetime_subscription_count + 1 }

/-- `UserDataStreamState::remove_subscription`: remove the first occurrence
(if any) and report whether one was found. -/
def remove_subscription (s : UserDataStreamState) (subscription_id : Nat) :
    UserDataStreamState × Bool :=
  if s.active_subscriptions.contains subscription_id then
    ({ s with active_subscriptions := s.active_subscriptions.erase subscription_id }, true)
  else (s, false)

/-- `UserDataStreamState::clear_all_subscriptions`. -/
def clear_all_subscriptions (s : UserDataStreamState) : UserDataStreamState :=
  { s with active_subscriptions := [] }

/-- `UserDataStreamState::active_count`. -/
def active_count (s : UserDataStreamState) : Nat :=
  s.active_subscriptions.length

end UserDataStreamState

/-- A mutation of `UserDataStreamState` as exposed by its public methods. -/
inductive UdsOp where
  | add (i : Nat)
  | remove (i : Nat)
  | clear
deriving DecidableEq

/-- One state transition; a rejected `add_subscription` leaves the state as
it was (the caller keeps the unchanged `&mut self`). -/
def udsStep (s : UserDataStreamState) : UdsOp → UserDataStreamState
  | .add i =>
    match s.add_subscription i with
    | .ok s' => s'
    | .error _ => s
  | .remove i => (s.remove_subscription i).1
  | .clear => s.clear_all_subscriptions

def udsRun (s : UserDataStreamState) (ops : List UdsOp) : UserDataStreamState :=
  ops.foldl udsStep s

/-! ## Client-method routing and `get_products` (`src/binance/src/handler.rs`)

The trade component is only a contract in the sources (`trait Trade`); where
the handler calls into it (`order`, `cancel`, `get_positions`, the trade
half of `login`), the embedding records an opaque `toTrade` effect.  The
embedded `subscribe` path is the one where the trade-side gate
(`Trade::handle_subscribe`) returns `None`.  Product metadata
(`BinanceSymbol`) is treated as an opaque string. -/

/-- An effect of dispatching one client request. -/
inductive HOut where
  | market (o : MOut)
  /-- a call forwarded to the trade component (contract-only in the sources). -/
  | toTrade (method : String) (addr : Nat) (id : Int)
deriving DecidableEq

/-- `ClientMethod` (`handler.rs`). -/
inductive ClientMethod where
  | login
  | subscribe
  | get_products
  | get_positions
  | order
  | cancel
deriving DecidableEq

/-- `ClientMethod::from_str`. -/
def ClientMethod.fromStr? (s : String) : Option ClientMethod :=
  if s = "login" then some .login
  else if s = "subscribe" then some .subscribe
  else if s = "get_products" then some .get_products
  else if s = "get_positions" then some .get_positions
  else if s = "order" then some .order
  else if s = "cancel" then some .cancel
  else none

/-- The decoded `params` of a client request; `undecodable` stands for a
body that fails `parser.decode::<SRequest<T>>()` for the routed method's
expected shape (the handler then logs and sends nothing). -/
inductive ReqParams where
  | loginParams (l : Login)
  | streamList (ss : List String)
  | undecodable
deriving DecidableEq

/-- A parsed strategy-client request: correlation id, method string, params. -/
structure ClientReq where
  id : Int
  method : String
  params : ReqParams
deriving DecidableEq

/-- `Handler::handle_strategy_client_get_products`: both branches collect
every value of the product catalog; the requested symbol list is never
consulted. -/
def handle_strategy_client_get_products (m : Market) (products : List (String × String))
    (addr : Nat) (reqId : Int) (params : List String) : Market × List MOut :=
  if params.isEmpty then
    (m, m.reply addr reqId (.products (products.map Prod.snd)))
  else
    (m, m.reply addr reqId (.products (products.map Prod.snd)))

/-- `Handler::handle_client_method` composed with
`Handler::execute_client_method`: look the method string up in the routing
table; an unknown method falls through with `Ok(())` and no effect. -/
def handle_client_method (m : Market) (products : List (String × String))
    (addr : Nat) (req : ClientReq) : Market × List HOut :=
  match ClientMethod.fromStr? req.method with
  | none => (m, [])
  | some .login =>
    match req.params with
    | .loginParams l =>
      let r := m.handle_login addr req.id l
      if l.trading then (r.1, .toTrade "login" addr req.id :: r.2.map HOut.market)
      else (r.1, r.2.map HOut.market)
    | _ => (m, [])
  | some .subscribe =>
    match req.params with
    | .streamList ss =>
      let r := m.handle_subscribe addr req.id ss
      (r.1, r.2.map HOut.market)
    | _ => (m, [])
  | some .get_products =>
    match req.params with
    | .streamList ss =>
      let r := handle_strategy_client_get_products m products addr req.id ss
      (r.1, r.2.map HOut.market)
    | _ => (m, [])
  | some .get_positions => (m, [.toTrade "get_positions" addr req.id])
  | some .order => (m, [.toTrade "order" addr req.id])
  | some .cancel => (m, [.toTrade "cancel" addr req.id])

/-! ## WS-API signing (`src/websocket/src/exchange.rs`, `src/websocket/src/client.rs`)

The Ed25519 signature itself (`sign_ed25519_base64`) is an external
cryptographic primitive; it enters the embedding as an abstract function
`signer : String → String` standing for `payload ↦
base64(ed25519_sign(secret, payload))` for one fixed secret.  The
millisecond timestamp produced by `generate_timestamp_websocket` enters as
an explicit `Int` argument. -/

/-- A `serde_json::Value` restricted to the variants the signing code
distinguishes. -/
inductive JVal where
  | str (s : String)
  | num (n : Int)
  | jbool (b : Bool)
deriving DecidableEq

/-- The value stringification used for signing payloads
(`Value::String(s) => s.clone(), _ => v.to_string()`). -/
def jvalToPayloadString : JVal → String
  | .str s => s
  | .num n => toString n
  | .jbool b => if b then "true" else "false"

/-- Byte-lexicographic order on strings (Rust `String::cmp`); for UTF-8 the
byte order coincides with the code-point order compared here. -/
def charsLt : List Char → List Char → Bool
  | [], [] => false
  | [], _ :: _ => true
  | _ :: _, [] => false
  | a :: as, b :: bs => if a = b then charsLt as bs else decide (a < b)

def strLtB (a b : String) : Bool := charsLt a.data b.data

/-- Stable insertion sort by key, ascending — the effect of
`pairs.sort_by(|a, b| a.0.cmp(&b.0))` (and of `BTreeMap` iteration order,
keys being unique). -/
def insertSorted (x : String × String) : List (String × String) → List (String × String)
  | [] => [x]
  | y :: ys => if strLtB y.1 x.1 then y :: insertSorted x ys else x :: y :: ys

def sortByKey : List (String × String) → List (String × String)
  | [] => []
  | x :: xs => insertSorted x (sortByKey xs)

def joinAmp : List String → String
  | [] => ""
  | [x] => x
  | x :: y :: xs => x ++ "&" ++ joinAmp (y :: xs)

/-- `BinanceWsApiProtocol::build_signature_payload`: `k=v` pairs joined by
`&`, in `BTreeMap` key order (ascending). -/
def build_signature_payload (params : List (String × String)) : String :=
  joinAmp ((sortByKey params).map (fun p => p.1 ++ "=" ++ p.2))

/-- The parameter map after `wsapi_call_signed` adds `apiKey` and the
millisecond `timestamp`. -/
def wsapi_signed_params (params0 : List (String × JVal)) (apiKey : String)
    (timestamp : Int) : List (String × JVal) :=
  ainsert (ainsert params0 "apiKey" (.str apiKey)) "timestamp" (.num timestamp)

/-- The signing payload built inside `WebsocketClient::wsapi_call_signed`
(src/websocket/src/client.rs, lines 254-270): stringify every parameter in
the map — with no exclusion — sort by key, join `k=v` with `&`. -/
def wsapi_signed_payload (params0 : List (String × JVal)) (apiKey : String)
    (timestamp : Int) : String :=
  let pairs := (wsapi_signed_params params0 apiKey timestamp).map
    (fun p => (p.1, jvalToPayloadString p.2))
  joinAmp ((sortByKey pairs).map (fun p => p.1 ++ "=" ++ p.2))

/-- The full request assembled by `wsapi_call_signed`: the signature is
added back into the params under key `"signature"`. -/
def wsapi_call_signed (params0 : List (String × JVal)) (apiKey : String)
    (timestamp : Int) (signer : String → String) (method : String) (id : Int) :
    Int × String × List (String × JVal) :=
  let params := wsapi_signed_params params0 apiKey timestamp
  let signature := signer (wsapi_signed_payload params0 apiKey timestamp)
  (id, method, ainsert params "signature" (.str signature))

/-- The signing payload built by `BinanceWsApiProtocol::build_signed_request`
(src/websocket/src/exchange.rs, lines 222-264): insert `apiKey` and
`timestamp`, stringify every parameter EXCEPT `signature`, and sign the
`BTreeMap`-ordered `k=v&...` join. -/
def build_signed_request_payload (params0 : List (String × JVal)) (apiKey : String)
    (timestamp : Int) : String :=
  let params := ainsert (ainsert params0 "apiKey" (.str apiKey)) "timestamp" (.num timestamp)
  let string_params := (params.filter (fun p => decide (p.1 ≠ "signature"))).map
    (fun p => (p.1, jvalToPayloadString p.2))
  build_signature_payload string_params

/-- The `session.logon` request built by `BinanceWsApiProtocol::build_login`
(src/websocket/src/exchange.rs, lines 293-328): params `{apiKey, timestamp}`,
payload in `BTreeMap` order, Ed25519 signature, and a request carrying
`{apiKey, signature, timestamp}`. -/
structure LoginRequest where
  id : String
  method : String
  apiKey : String
  signature : String
  timestamp : Int
deriving DecidableEq

def build_login_payload (apiKey : String) (timestamp : Int) : String :=
  build_signature_payload (ainsert (ainsert [] "apiKey" apiKey) "timestamp" (toString timestamp))

def build_login (apiKey : String) (timestamp : Int) (signer : String → String) :
    LoginRequest :=
  ⟨"session_logon_1", "session.logon", apiKey,
   signer (build_login_payload apiKey timestamp), timestamp⟩

/-- Modelled from the spec: «the signing payload is formed from all
parameters except `signature`, sorted by key in ascending lexicographic
order and joined as `k=v` pairs with `&`» — stated over an already
stringified parameter map, for comparison with the payloads the code
builds. -/
def specSigningPayload (params : List (String × String)) : String :=
  joinAmp ((sortByKey (params.filter (fun p => decide (p.1 ≠ "signature")))).map
    (fun p => p.1 ++ "=" ++ p.2))

/-! ## Order projections (`src/binance/src/model/mod.rs`,
`src/binance/src/model/order.rs`)

Only the fields that feed the claim-relevant part of the `Order` / `SOrder`
projections are carried (`f64`-valued fields — price, quantity, fills — are
floating point and outside the embedding; the projection computes them by
independent field-wise parses). -/

/-- `State` (`src/src/chat.rs`). -/
inductive RState where
  | CANCELED
  | PARTIALLY_FILLED
  | FILLED
  | NEW
  | PENDING_NEW
  | PENDING_CANCEL
  | REJECTED
  | EXPIRED
  | EXPIRED_IN_MATCH
  | LIVE
  | MMP_CANCELED
deriving DecidableEq

/-- `Side` (`src/src/chat.rs`). -/
inductive RSide where
  | BUY
  | SELL
deriving DecidableEq

/-- Rust `str::parse::<u64>()`: optional leading `+`, one or more ASCII
digits, rejecting the empty string and values above `2^64 - 1`. -/
def parseU64? (s : String) : Option Nat :=
  let cs :=
    match s.data with
    | '+' :: rest => rest
    | cs => cs
  if cs.isEmpty then none
  else if cs.all Char.isDigit then
    let v := cs.foldl (fun acc c => acc * 10 + (c.toNat - 48)) 0
    if v < 2 ^ 64 then some v else none
  else none

/-- `ExecutionReport` (spot user-data event), restricted to the fields the
`Order` projection reads for id, state, symbol, side, times and maker flag. -/
structure ExecutionReport where
  /-- `s` — symbol (lowercased on deserialization). -/
  s : String
  /-- `c` — the (live) client order id. -/
  c : String
  /-- `C` — the original client order id. -/
  C : String
  /-- `S` — side. -/
  S : RSide
  /-- `X` — current order state. -/
  X : RState
  /-- `i` — exchange order id. -/
  i : Int
  /-- `T` — trade time. -/
  T : Int
  /-- `m` — was the trade a maker fill. -/
  m : Bool
deriving DecidableEq

/-- The claim-relevant part of the `Order` view (`src/src/chat.rs`). -/
structure OrderView where
  internal_id : Nat
  state : RState
  order_id : Int
  symbol : String
  side : RSide
  trade_time : Int
  making : Bool
deriving DecidableEq

/-- `impl From<ExecutionReport> for Order` (src/binance/src/model/mod.rs,
lines 196-223): for `CANCELED` the client order id comes from `C`, else
from `c`; parse as `u64` defaulting to 0; keep the low 32 bits. -/
def orderFromExecutionReport (r : ExecutionReport) : OrderView :=
  let client_order_id :=
    (parseU64? (match r.X with | .CANCELED => r.C | _ => r.c)).getD 0
  let internal_id := client_order_id % 2 ^ 32
  ⟨internal_id, r.X, r.i, r.s, r.S, r.T, r.m⟩

/-- `OrderData` (usdt futures `ORDER_TRADE_UPDATE` inner object), restricted
to the fields the `SOrder` projection reads for id, state, symbol, side,
times and maker flag.  It carries a single client-order-id field `c`. -/
structure OrderData where
  s : String
  c : String
  S : RSide
  X : RState
  i : Int
  T : Int
  m : Bool
deriving DecidableEq

/-- `OrderUpdate` (src/binance/src/model/order.rs): event wrapper around
`OrderData`. -/
structure OrderUpdate where
  e : String
  E : Int
  T : Int
  o : OrderData
deriving DecidableEq

/-- `impl From<OrderUpdate> for SOrder` (src/binance/src/model/order.rs,
lines 103-126): the client order id is always read from `o.c`. -/
def sorderFromOrderUpdate (u : OrderUpdate) : OrderView :=
  let o := u.o
  let client_order_id := (parseU64? o.c).getD 0
  let internal_id := client_order_id % 2 ^ 32
  ⟨internal_id, o.X, o.i, o.s, o.S, o.T, o.m⟩

/-! ## Upstream connect (`src/websocket/src/client.rs`, `src/websocket/src/error.rs`) -/

/-- `Error` (src/websocket/src/error.rs): the complete error enum of the
websocket crate. -/
inductive WsClientError where
  | WebSocketError (s : String)
  | AuthenticationError (s : String)
  | JsonError (s : String)
deriving DecidableEq

/-- The start of `WebsocketClient::connect` (src/websocket/src/client.rs,
lines 116-125): parse the URL, then `connect_async(url).await` with no
timeout combinator around it.  The outcome of the TCP+TLS attempt is
abstracted as `attempt : Except String Unit` (the error string is the
display of the tungstenite error) and `elapsedMs` records how long the
attempt took; since the source wraps the await in nothing, the result
cannot depend on the elapsed time. -/
def connectOutcome (urlOk : Bool) (elapsedMs : Nat) (attempt : Except String Unit) :
    Except WsClientError Unit :=
  let _ := elapsedMs
  if !urlOk then .error (.WebSocketError "无效的WebSocket URL")
  else
    match attempt with
    | .ok _ => .ok ()
    | .error e => .error (.WebSocketError ("连接WebSocket失败: " ++ e))

/-- Names the constructor of a `connect` outcome, to compare with the error
taxonomy the spec claims (`ConnectionTimeout`, `ConnectionError`). -/
def connectOutcomeClass : Except WsClientError Unit → String
  | .ok _ => "ok"
  | .error (.WebSocketError _) => "WebSocketError"
  | .error (.AuthenticationError _) => "AuthenticationError"
  | .error (.JsonError _) => "JsonError"

/-! ## Invariants and trace material -/

/-- The refcount the market stores for symbol `s` (0 when absent). -/
def refcount (m : Market) (s : String) : Nat :=
  (afind? m.symbols s).getD 0

/-- The number of current subscribers whose symbol set contains `s`. -/
def holders (m : Market) (s : String) : Nat :=
  List.countP (fun p => p.2.symbols.contains s) m.subscribers

/-- The refcount invariant of the spec: for every symbol, the stored
refcount equals the number of subscribers holding it. -/
def RefInv (m : Market) : Prop :=
  ∀ s, refcount m s = holders m s

/-- Structural well-formedness of the market maps: unique keys, and each
subscriber's symbol set duplicate-free (it embeds a `HashSet`). -/
def MarketWF (m : Market) : Prop :=
  ANodupKeys m.subscribers ∧ ANodupKeys m.symbols ∧
    ∀ p ∈ m.subscribers, p.2.symbols.Nodup

/-- The requested streams of a subscribe are duplicate-free and are fixed
points of the symbol rewrite (no `kline`/`bbo`/`depth` renaming). -/
def goodOp : MOp → Bool
  | .subscribe _ _ streams =>
    decide streams.Nodup && streams.all (fun s => Market.normalizeSymbol s == s)
  | _ => true

/-- Every pending-request id was produced by the market's own counter:
it lies in `[1, m.id)`, and the counter itself stays at least 1. -/
def IdInv (m : Market) : Prop :=
  (∀ i a, afind? m.requests i = some a → 1 ≤ i ∧ i < m.id) ∧ 1 ≤ m.id

/-- Bounds on user-data-stream state reachable from the default state. -/
def UdsInv (s : UserDataStreamState) : Prop :=
  s.max_concurrent_subscriptions = 1000 ∧ s.max_lifetime_subscriptions = 65535 ∧
    s.active_subscriptions.length ≤ 1000 ∧ s.lifetime_subscription_count ≤ 65535

/-- Whether an output is an upstream `SUBSCRIBE` frame. -/
def isSubscribeFrame : MOut → Bool
  | .upstream meth _ _ => meth == "SUBSCRIBE"
  | _ => false

/-- A login params value used by the concrete traces. -/
def someLogin : Login := ⟨1, none, false⟩

/-- One client logs in and sends a single subscribe whose params list
repeats the same stream twice. -/
def c1ops : List MOp :=
  [.connect 0, .login 0 1 someLogin, .subscribe 0 2 ["a", "a"]]

/-- One client logs in and subscribes one plain stream once; used to
exercise the refcount invariant and the close behaviour. -/
def c1wops : List MOp :=
  [.connect 0, .login 0 1 someLogin, .subscribe 0 2 ["a"]]

/-- One client sends the same subscribe request (`btcusdt@bbo`) twice. -/
def c3ops : List MOp :=
  [.connect 0, .login 0 1 someLogin, .subscribe 0 2 ["btcusdt@bbo"],
   .subscribe 0 3 ["btcusdt@bbo"]]

/-- One client logs in, subscribes, and disconnects. -/
def c5ops : List MOp :=
  [.connect 0, .login 0 1 someLogin, .subscribe 0 2 ["a"], .close 0]

/-! # Theorems -/

section AssocLemmas

variable [DecidableEq α]

theorem afind?_eq_none_of_not_mem (m : List (α × β)) (k : α)
    (h : k ∉ akeys m) : afind? m k = none := by
  induction m with
  | nil => rfl
  | cons p rest ih =>
    rcases p with ⟨a, b⟩
    simp only [akeys, List.map_cons, List.mem_cons, not_or] at h
    simp only [afind?, if_neg (Ne.symm h.1)]
    exact ih h.2

theorem mem_akeys_of_afind? (m : List (α × β)) (k : α) (v : β)
    (h : afind? m k = some v) : k ∈ akeys m := by
  by_contra hmem
  rw [afind?_eq_none_of_not_mem m k hmem] at h
  cases h

theorem aerase_cons_self (a : α) (b : β) (rest : List (α × β)) :
    aerase ((a, b) :: rest) a = aerase rest a := by
  simp [aerase]

theorem aerase_cons_ne (a : α) (b : β) (rest : List (α × β)) (k : α)
    (h : a ≠ k) : aerase ((a, b) :: rest) k = (a, b) :: aerase rest k := by
  simp [aerase, h]

theorem aerase_of_afind?_none (m : List (α × β)) (k : α)
    (h : afind? m k = none) : aerase m k = m := by
  induction m with
  | nil => rfl
  | cons p rest ih =>
    rcases p with ⟨a, b⟩
    by_cases ha : a = k
    · simp [afind?, ha] at h
    · simp only [afind?, if_neg ha] at h
      rw [aerase_cons_ne a b rest k ha, ih h]

theorem afind?_aerase_self (m : List (α × β)) (k : α) :
    afind? (aerase m k) k = none := by
  induction m with
  | nil => rfl
  | cons p rest ih =>
    rcases p with ⟨a, b⟩
    by_cases ha : a = k
    · rw [ha, aerase_cons_self]; exact ih
    · rw [aerase_cons_ne a b rest k ha]
      simp only [afind?, if_neg ha]
      exact ih

theorem afind?_aerase_ne (m : List (α × β)) (k k' : α) (h : k ≠ k') :
    afind? (aerase m k) k' = afind? m k' := by
  induction m with
  | nil => rfl
  | cons p rest ih =>
    rcases p with ⟨a, b⟩
    by_cases ha : a = k
    · rw [ha, aerase_cons_self]
      simp only [afind?, if_neg h]
      exact ih
    · rw [aerase_cons_ne a b rest k ha]
      by_cases hb : a = k'
      · simp [afind?, hb]
      · simp only [afind?, if_neg hb]
        exact ih

theorem afind?_ainsert_self (m : List (α × β)) (k : α) (v : β) :
    afind? (ainsert m k v) k = some v := by
  simp [ainsert, afind?]

theorem afind?_ainsert_ne (m : List (α × β)) (k k' : α) (v : β) (h : k ≠ k') :
    afind? (ainsert m k v) k' = afind? m k' := by
  simp only [ainsert, afind?, if_neg h]
  exact afind?_aerase_ne m k k' h

theorem anodup_aerase (m : List (α × β)) (k : α) (h : ANodupKeys m) :
    ANodupKeys (aerase m k) := by
  induction m with
  | nil => exact h
  | cons p rest ih =>
    rcases p with ⟨a, b⟩
    simp only [ANodupKeys, akeys, List.map_cons, List.nodup_cons] at h
    by_cases ha : a = k
    · rw [ha, aerase_cons_self]; exact ih h.2
    · rw [aerase_cons_ne a b rest k ha]
      simp only [ANodupKeys, akeys, List.map_cons, List.nodup_cons]
      refine ⟨?_, ih h.2⟩
      intro hmem
      rcases List.mem_map.mp hmem with ⟨q, hq, hqe⟩
      exact h.1 (List.mem_map.mpr ⟨q, (List.mem_filter.mp hq).1, hqe⟩)

theorem anodup_ainsert (m : List (α × β)) (k : α) (v : β) (h : ANodupKeys m) :
    ANodupKeys (ainsert m k v) := by
  simp only [ainsert, ANodupKeys, akeys, List.map_cons, List.nodup_cons]
  refine ⟨?_, anodup_aerase m k h⟩
  intro hmem
  rcases List.mem_map.mp hmem with ⟨q, hq, hqe⟩
  have hne : q.1 ≠ k := by simpa using (List.mem_filter.mp hq).2
  exact hne hqe

theorem countP_aerase (m : List (α × β)) (k : α) (v : β) (p : α × β → Bool)
    (hn : ANodupKeys m) (hf : afind? m k = some v) :
    List.countP p m = (if p (k, v) then 1 else 0) + List.countP p (aerase m k) := by
  induction m with
  | nil => simp [afind?] at hf
  | cons q rest ih =>
    rcases q with ⟨a, b⟩
    simp only [ANodupKeys, akeys, List.map_cons, List.nodup_cons] at hn
    by_cases ha : a = k
    · subst ha
      simp only [afind?, if_true, eq_self_iff_true, Option.some.injEq] at hf
      subst hf
      rw [aerase_cons_self]
      have hnone : afind? rest a = none :=
        afind?_eq_none_of_not_mem rest a hn.1
      rw [aerase_of_afind?_none rest a hnone]
      simp only [List.countP_cons]
      rcases hpv : p (a, b) with _ | _ <;> (simp [hpv]; try omega)
    · simp only [afind?, if_neg ha] at hf
      have := ih hn.2 hf
      rw [aerase_cons_ne a b rest k ha]
      simp only [List.countP_cons] at *
      omega

theorem countP_aerase_not_mem (m : List (α × β)) (k : α) (p : α × β → Bool)
    (h : afind? m k = none) :
    List.countP p (aerase m k) = List.countP p m := by
  rw [aerase_of_afind?_none m k h]

end AssocLemmas

/-! ## C2 — user-data-stream subscription accounting -/

theorem udsStep_inv (s : UserDataStreamState) (op : UdsOp) (h : UdsInv s) :
    UdsInv (udsStep s op) := by
  obtain ⟨h1, h2, h3, h4⟩ := h
  cases op with
  | add i =>
    simp only [udsStep, UserDataStreamState.add_subscription]
    by_cases hc : s.can_create_subscription
    · have hlt := hc
      simp only [UserDataStreamState.can_create_subscription, Bool.and_eq_true,
        decide_eq_true_eq, h1, h2] at hlt
      simp only [hc, Bool.not_true, if_neg]
      refine ⟨h1, h2, ?_, ?_⟩ <;> simp <;> omega
    · simp only [hc, Bool.not_false, if_pos]
      exact ⟨h1, h2, h3, h4⟩
  | remove i =>
    simp only [udsStep, UserDataStreamState.remove_subscription]
    by_cases hc : s.active_subscriptions.contains i
    · simp only [hc, if_pos]
      refine ⟨h1, h2, ?_, h4⟩
      calc (s.active_subscriptions.erase i).length
          ≤ s.active_subscriptions.length :=
            (s.active_subscriptions.erase_sublist i).length_le
        _ ≤ 1000 := h3
    · simp only [hc, if_neg]
      exact ⟨h1, h2, h3, h4⟩
  | clear =>
    simp only [udsStep, UserDataStreamState.clear_all_subscriptions]
    exact ⟨h1, h2, by simp, h4⟩

theorem udsRun_inv (ops : List UdsOp) (s : UserDataStreamState) (h : UdsInv s) :
    UdsInv (udsRun s ops) := by
  induction ops generalizing s with
  | nil => exact h
  | cons op rest ih => exact ih (udsStep s op) (udsStep_inv s op h)

/-- C2: from the default `UserDataStreamState` (1000 concurrent, 65535
lifetime, zero count, empty list): `can_create_subscription` is true iff
both limits are strict; `add_subscription` errors without changing the
state exactly when creation is impossible and otherwise appends the id and
increments the lifetime count; `remove_subscription` and
`clear_all_subscriptions` keep the lifetime count; and every state
reachable by these operations satisfies `len(active) ≤ 1000` and
`lifetime_count ≤ 65535`. -/
theorem c2_user_data_stream_limits :
    (∀ s : UserDataStreamState, s.can_create_subscription = true ↔
      (s.active_subscriptions.length < s.max_concurrent_subscriptions ∧
       s.lifetime_subscription_count < s.max_lifetime_subscriptions)) ∧
    (∀ (s : UserDataStreamState) (i : Nat),
      s.add_subscription i =
        if s.can_create_subscription then
          .ok { s with active_subscriptions := s.active_subscriptions ++ [i],
                       lifetime_subscription_count := s.lifetime_subscription_count + 1 }
        else .error "达到订阅限制") ∧
    (∀ (s : UserDataStreamState) (i : Nat),
      (s.remove_subscription i).1.lifetime_subscription_count =
        s.lifetime_subscription_count ∧
      s.clear_all_subscriptions.lifetime_subscription_count =
        s.lifetime_subscription_count) ∧
    (∀ ops : List UdsOp,
      (udsRun UserDataStreamState.mkDefault ops).active_subscriptions.length ≤ 1000 ∧
      (udsRun UserDataStreamState.mkDefault ops).lifetime_subscription_count ≤ 65535) := by
  refine ⟨?_, ?_, ?_, ?_⟩
  · intro s
    simp [UserDataStreamState.can_create_subscription]
  · intro s i
    simp only [UserDataStreamState.add_subscription]
    by_cases hc : s.can_create_subscription <;> simp [hc]
  · intro s i
    constructor
    · simp only [UserDataStreamState.remove_subscription]
      by_cases hc : i ∈ s.active_subscriptions <;> simp [hc]
    · rfl
  · intro ops
    have h := udsRun_inv ops UserDataStreamState.mkDefault
      ⟨rfl, rfl, by simp [UserDataStreamState.mkDefault], by simp [UserDataStreamState.mkDefault]⟩
    exact ⟨h.2.2.1, h.2.2.2⟩

/-! ## C6 — subscribe before login -/

/-- C6: a subscribe from a connected client that has not logged in is
answered synchronously with error code `NOT_LOGIN` and message
«please login first», no upstream frame is sent, and the market state —
subscribers, refcounts, pending requests — is exactly unchanged. -/
theorem c6_subscribe_before_login (m : Market) (addr : Nat) (reqId : Int)
    (streams : List String)
    (hconn : m.txs.contains addr = true)
    (hnosub : acontains m.subscribers addr = false) :
    m.handle_subscribe addr reqId streams =
      (m, [MOut.toClient addr reqId
            (.err ⟨ErrCode.NOT_LOGIN, "please login first"⟩)]) := by
  have hconn' : addr ∈ m.txs := by simpa using hconn
  simp [Market.handle_subscribe, Market.validate_login, hnosub, Market.reply, hconn']

theorem c6_subscribe_before_login_witness :
    (Market.init.handle_connect 0).handle_subscribe 0 9 ["x"] =
      (Market.init.handle_connect 0,
       [MOut.toClient 0 9 (.err ⟨ErrCode.NOT_LOGIN, "please login first"⟩)]) :=
  c6_subscribe_before_login (Market.init.handle_connect 0) 0 9 ["x"]
    (by decide) (by decide)

/-! ## C8 — order projections and the client-order-id source -/

/-- C8 counterexample: a `CANCELED` futures `OrderUpdate` projects its
`internal_id` from the live client-order-id field `c` — two updates that
differ only in `c` (there is no original-client-order-id field in
`OrderData`) project to different `internal_id`s, so the id is not read
from an «original client order id» field. -/
theorem c8_order_update_counterexample :
    (⟨"ORDER_TRADE_UPDATE", 1, 1, ⟨"btcusdt", "7", .BUY, .CANCELED, 10, 1, false⟩⟩ :
        OrderUpdate).o.X = RState.CANCELED ∧
    (sorderFromOrderUpdate
      ⟨"ORDER_TRADE_UPDATE", 1, 1, ⟨"btcusdt", "7", .BUY, .CANCELED, 10, 1, false⟩⟩).internal_id = 7 ∧
    (sorderFromOrderUpdate
      ⟨"ORDER_TRADE_UPDATE", 1, 1, ⟨"btcusdt", "8", .BUY, .CANCELED, 10, 1, false⟩⟩).internal_id = 8 := by
  refine ⟨rfl, by decide, by decide⟩

/-- C8 (amended): both projections compute `internal_id` as the low 32 bits
of the client order id parsed as `u64` (0 when the parse fails); the
`ExecutionReport` projection reads the original-client-order-id field `C`
exactly for `CANCELED` and the live field `c` otherwise, while the
`OrderUpdate` projection always reads the live field `c` (its payload
carries no original id). -/
theorem c8_internal_id_amended (r : ExecutionReport) (u : OrderUpdate) :
    (orderFromExecutionReport r).internal_id =
      ((parseU64? (match r.X with | .CANCELED => r.C | _ => r.c)).getD 0) % 2 ^ 32 ∧
    (orderFromExecutionReport r).state = r.X ∧
    (sorderFromOrderUpdate u).internal_id = ((parseU64? u.o.c).getD 0) % 2 ^ 32 ∧
    (sorderFromOrderUpdate u).state = u.o.X :=
  ⟨rfl, rfl, rfl, rfl⟩

/-! ## C9 — connect timeout -/

/-- C9 counterexample: the connection attempt is not bounded by 3 seconds —
an attempt that only succeeds after 10000 ms still succeeds, and a failing
attempt surfaces as `WebSocketError`, not as a `ConnectionTimeout` or
`ConnectionError` (the websocket error enum has no such variants). -/
theorem c9_connect_timeout_counterexample :
    3000 < 10000 ∧
    connectOutcome true 10000 (.ok ()) = .ok () ∧
    connectOutcome true 10000 (.error "connection refused") =
      .error (.WebSocketError "连接WebSocket失败: connection refused") ∧
    connectOutcomeClass (connectOutcome true 10000 (.error "connection refused")) ≠
      "ConnectionTimeout" ∧
    connectOutcomeClass (connectOutcome true 10000 (.error "connection refused")) ≠
      "ConnectionError" := by
  refine ⟨by norm_num, rfl, rfl, by decide, by decide⟩

/-- C9 (amended): `WebsocketClient::connect` wraps no timeout around the
TCP+TLS attempt — its outcome is independent of how long the attempt takes —
and every failure is reported through the `WebSocketError` variant. -/
theorem c9_connect_no_timeout_amended (urlOk : Bool) (t t' : Nat)
    (attempt : Except String Unit) :
    connectOutcome urlOk t attempt = connectOutcome urlOk t' attempt ∧
    (connectOutcomeClass (connectOutcome urlOk t attempt) = "ok" ∨
     connectOutcomeClass (connectOutcome urlOk t attempt) = "WebSocketError") := by
  refine ⟨rfl, ?_⟩
  cases urlOk <;> cases attempt <;> simp [connectOutcome, connectOutcomeClass]

/-! ## C10 — `get_products` ignores the symbol filter -/

/-- C10: the `get_products` handler never consults the requested symbol
list — for every params list the reply is identical to the reply for the
empty list, and it carries every product of the catalog. -/
theorem c10_get_products_ignores_filter (m : Market)
    (products : List (String × String)) (addr : Nat) (reqId : Int)
    (params : List String) :
    handle_strategy_client_get_products m products addr reqId params =
      handle_strategy_client_get_products m products addr reqId [] ∧
    (handle_strategy_client_get_products m products addr reqId params).2 =
      m.reply addr reqId (.products (products.map Prod.snd)) := by
  constructor
  · simp [handle_strategy_client_get_products]
  · simp only [handle_strategy_client_get_products]
    by_cases h : params.isEmpty <;> simp [h]

/-! ## C4 — no silent drop of correlated requests -/

/-- C4 counterexample: a request carrying correlation id 9 whose method
string (`frobnicate`) is not in the routing table is dropped without any
reply on the client's sink — `handle_client_method` produces no output at
all, although the client is connected and the gateway is up. -/
theorem c4_unknown_method_counterexample :
    handle_client_method (Market.init.handle_connect 0) [("btcusdt", "meta")] 0
        ⟨9, "frobnicate", .streamList ["x"]⟩ =
      (Market.init.handle_connect 0, []) := by decide

/-- C4 (amended): a request whose method string is not one of the six
routed methods receives no reply at all (it is silently dropped); a routed
`get_products` request from a connected client receives exactly one reply
carrying the request's id. -/
theorem c4_routing_amended (m : Market) (products : List (String × String))
    (addr : Nat) (req : ClientReq) (reqId : Int) (ss : List String)
    (hunknown : ClientMethod.fromStr? req.method = none)
    (hconn : m.txs.contains addr = true) :
    handle_client_method m products addr req = (m, []) ∧
    handle_client_method m products addr ⟨reqId, "get_products", .streamList ss⟩ =
      (m, [.market (.toClient addr reqId (.products (products.map Prod.snd)))]) := by
  have hconn' : addr ∈ m.txs := by simpa using hconn
  constructor
  · simp [handle_client_method, hunknown]
  · have hm : ClientMethod.fromStr? "get_products" = some .get_products := by decide
    simp [handle_client_method, hm, handle_strategy_client_get_products,
      Market.reply, hconn']

theorem c4_routing_amended_witness :
    handle_client_method (Market.init.handle_connect 0) [("btcusdt", "meta")] 0
        ⟨9, "frobnicate", .streamList ["x"]⟩ = (Market.init.handle_connect 0, []) ∧
    handle_client_method (Market.init.handle_connect 0) [("btcusdt", "meta")] 0
        ⟨7, "get_products", .streamList ["btcusdt"]⟩ =
      (Market.init.handle_connect 0,
       [.market (.toClient 0 7 (.products ["meta"]))]) :=
  c4_routing_amended (Market.init.handle_connect 0) [("btcusdt", "meta")] 0
    ⟨9, "frobnicate", .streamList ["x"]⟩ 7 ["btcusdt"] (by decide) (by decide)

/-! ## C7 — signing payload construction -/

theorem mem_of_mem_aerase [DecidableEq α] {m : List (α × β)} {k : α} {p : α × β}
    (h : p ∈ aerase m k) : p ∈ m := (List.mem_filter.mp h).1

theorem afind?_isSome_of_mem_key [DecidableEq α] {m : List (α × β)} {p : α × β}
    (hm : p ∈ m) : (afind? m p.1).isSome := by
  induction m with
  | nil => cases hm
  | cons q rest ih =>
    rcases List.mem_cons.mp hm with he | ht
    · subst he
      rcases p with ⟨a, b⟩
      simp [afind?]
    · rcases q with ⟨a, b⟩
      by_cases ha : a = p.1
      · simp [afind?, ha]
      · simp only [afind?, if_neg ha]
        exact ih ht

theorem afind?_none_key_ne [DecidableEq α] {m : List (α × β)} {k : α} {p : α × β}
    (h : afind? m k = none) (hm : p ∈ m) : p.1 ≠ k := by
  intro he
  have hs := afind?_isSome_of_mem_key hm
  rw [he, h] at hs
  simp at hs

theorem wsapi_signed_params_keys_ne (params0 : List (String × JVal)) (K : String)
    (T : Int) (hnosig : afind? params0 "signature" = none) :
    ∀ p ∈ wsapi_signed_params params0 K T, p.1 ≠ "signature" := by
  intro p hp
  simp only [wsapi_signed_params, ainsert] at hp
  rcases List.mem_cons.mp hp with he | hp2
  · subst he; simp
  · have hp3 := mem_of_mem_aerase hp2
    rcases List.mem_cons.mp hp3 with he2 | hp4
    · subst he2; simp
    · exact afind?_none_key_ne hnosig (mem_of_mem_aerase hp4)

theorem filter_map_key_comm (params : List (String × JVal)) :
    ((params.filter (fun p => decide (p.1 ≠ "signature"))).map
        (fun p => (p.1, jvalToPayloadString p.2))) =
      ((params.map (fun p => (p.1, jvalToPayloadString p.2))).filter
        (fun p => decide (p.1 ≠ "signature"))) := by
  induction params with
  | nil => rfl
  | cons p rest ih =>
    by_cases hp : p.1 = "signature"
    · have h1 : List.filter (fun q => decide (q.1 ≠ "signature")) (p :: rest) =
          List.filter (fun q => decide (q.1 ≠ "signature")) rest := by
        simp [List.filter_cons, hp]
      have h2 : List.filter (fun q => decide (q.1 ≠ "signature"))
            ((p.1, jvalToPayloadString p.2) ::
              rest.map (fun q => (q.1, jvalToPayloadString q.2))) =
          List.filter (fun q => decide (q.1 ≠ "signature"))
            (rest.map (fun q => (q.1, jvalToPayloadString q.2))) := by
        simp [List.filter_cons, hp]
      rw [h1, List.map_cons, h2, ih]
    · have h1 : List.filter (fun q => decide (q.1 ≠ "signature")) (p :: rest) =
          p :: List.filter (fun q => decide (q.1 ≠ "signature")) rest := by
        simp [List.filter_cons, hp]
      have h2 : List.filter (fun q => decide (q.1 ≠ "signature"))
            ((p.1, jvalToPayloadString p.2) ::
              rest.map (fun q => (q.1, jvalToPayloadString q.2))) =
          (p.1, jvalToPayloadString p.2) ::
            List.filter (fun q => decide (q.1 ≠ "signature"))
              (rest.map (fun q => (q.1, jvalToPayloadString q.2))) := by
        simp [List.filter_cons, hp]
      rw [h1, List.map_cons, List.map_cons, h2, ih]

/-- C7 counterexample: `wsapi_call_signed` does not exclude a
caller-supplied `signature` parameter from the signing payload — for
`params = {signature: "x"}` the payload it signs contains `signature=x`,
while the payload the spec describes (all parameters except `signature`)
does not. -/
theorem c7_signature_payload_counterexample :
    wsapi_signed_payload [("signature", .str "x")] "K" 1700000000000 =
      "apiKey=K&signature=x&timestamp=1700000000000" ∧
    specSigningPayload
        ((wsapi_signed_params [("signature", .str "x")] "K" 1700000000000).map
          (fun p => (p.1, jvalToPayloadString p.2))) =
      "apiKey=K&timestamp=1700000000000" ∧
    ("apiKey=K&signature=x&timestamp=1700000000000" : String) ≠
      "apiKey=K&timestamp=1700000000000" := by
  refine ⟨by decide, by decide, by decide⟩

/-- C7 (amended): `apiKey` and the millisecond timestamp are inserted into
the parameter map and the signature is added back under key `"signature"`;
the payload is the ascending-key `k=v&…` join of the stringified
parameters.  `build_signed_request` excludes a `signature` parameter from
the payload as the spec states; `wsapi_call_signed` applies no such
exclusion, so it matches the spec's payload exactly when the caller passes
no `signature` parameter.  `session.logon` (`build_login`) signs
`apiKey=…&timestamp=…` and emits `{apiKey, signature, timestamp}`.
Payload construction is a pure function of the parameters, the key and the
timestamp, hence deterministic. -/
theorem c7_signing_amended (params0 : List (String × JVal)) (K : String) (T : Int)
    (signer : String → String) (method : String) (id : Int)
    (hnosig : afind? params0 "signature" = none) :
    wsapi_signed_payload params0 K T =
      specSigningPayload ((wsapi_signed_params params0 K T).map
        (fun p => (p.1, jvalToPayloadString p.2))) ∧
    build_signed_request_payload params0 K T =
      specSigningPayload
        ((ainsert (ainsert params0 "apiKey" (.str K)) "timestamp" (.num T)).map
          (fun p => (p.1, jvalToPayloadString p.2))) ∧
    build_login K T signer =
      ⟨"session_logon_1", "session.logon", K,
       signer (specSigningPayload [("apiKey", K), ("timestamp", toString T)]), T⟩ ∧
    wsapi_call_signed params0 K T signer method id =
      (id, method,
       ainsert (wsapi_signed_params params0 K T) "signature"
         (.str (signer (wsapi_signed_payload params0 K T)))) := by
  refine ⟨?_, ?_, ?_, rfl⟩
  · have hkeys := wsapi_signed_params_keys_ne params0 K T hnosig
    have hfilter :
        ((wsapi_signed_params params0 K T).map
            (fun p => (p.1, jvalToPayloadString p.2))).filter
          (fun p => decide (p.1 ≠ "signature")) =
        (wsapi_signed_params params0 K T).map
          (fun p => (p.1, jvalToPayloadString p.2)) := by
      apply List.filter_eq_self.mpr
      intro x hx
      rcases List.mem_map.mp hx with ⟨p, hp, hpe⟩
      have := hkeys p hp
      subst hpe
      simpa using this
    simp only [wsapi_signed_payload, specSigningPayload, hfilter]
  · simp only [build_signed_request_payload, build_signature_payload,
      specSigningPayload, filter_map_key_comm]
  · rfl

theorem c7_signing_amended_witness :
    wsapi_signed_payload [("symbol", .str "BTCUSDT")] "K" 1700000000000 =
      specSigningPayload
        ((wsapi_signed_params [("symbol", .str "BTCUSDT")] "K" 1700000000000).map
          (fun p => (p.1, jvalToPayloadString p.2))) ∧
    build_signed_request_payload [("symbol", .str "BTCUSDT")] "K" 1700000000000 =
      specSigningPayload
        ((ainsert (ainsert [("symbol", .str "BTCUSDT")] "apiKey" (.str "K"))
            "timestamp" (.num 1700000000000)).map
          (fun p => (p.1, jvalToPayloadString p.2))) ∧
    build_login "K" 1700000000000 (fun _ => "SIG") =
      ⟨"session_logon_1", "session.logon", "K",
       (fun _ : String => "SIG")
         (specSigningPayload [("apiKey", "K"), ("timestamp", toString (1700000000000 : Int))]),
       1700000000000⟩ ∧
    wsapi_call_signed [("symbol", .str "BTCUSDT")] "K" 1700000000000
        (fun _ => "SIG") "order.place" 5 =
      (5, "order.place",
       ainsert (wsapi_signed_params [("symbol", .str "BTCUSDT")] "K" 1700000000000)
         "signature"
         (.str ((fun _ : String => "SIG")
           (wsapi_signed_payload [("symbol", .str "BTCUSDT")] "K" 1700000000000)))) :=
  c7_signing_amended [("symbol", .str "BTCUSDT")] "K" 1700000000000
    (fun _ => "SIG") "order.place" 5 (by decide)

/-! ## C5 — pending-request table -/

theorem idInv_insert_fresh (requests : List (Int × Nat)) (id : Int) (addr : Nat)
    (h1 : ∀ i a, afind? requests i = some a → 1 ≤ i ∧ i < id) (h2 : 1 ≤ id) :
    (∀ i a, afind? (ainsert requests id addr) i = some a → 1 ≤ i ∧ i < id + 1) ∧
      1 ≤ id + 1 := by
  constructor
  · intro i a hf
    by_cases hi : id = i
    · subst hi; omega
    · rw [afind?_ainsert_ne _ _ _ _ hi] at hf
      have := h1 i a hf
      omega
  · omega

theorem idInv_erase_any (requests : List (Int × Nat)) (id k : Int)
    (h1 : ∀ i a, afind? requests i = some a → 1 ≤ i ∧ i < id) :
    ∀ i a, afind? (aerase requests k) i = some a → 1 ≤ i ∧ i < id := by
  intro i a hf
  by_cases hik : k = i
  · subst hik
    rw [afind?_aerase_self] at hf
    cases hf
  · rw [afind?_aerase_ne _ _ _ hik] at hf
    exact h1 i a hf

theorem idInv_step (m : Market) (op : MOp) (h : IdInv m) : IdInv (m.step op).1 := by
  obtain ⟨h1, h2⟩ := h
  cases op with
  | connect a => exact ⟨h1, h2⟩
  | login a i l =>
    simp only [Market.step, Market.handle_login]
    split <;> exact ⟨h1, h2⟩
  | subscribe a i ss =>
    simp only [Market.step, Market.handle_subscribe]
    split
    · exact ⟨h1, h2⟩
    · split
      · exact ⟨h1, h2⟩
      · exact idInv_insert_fresh m.requests m.id a h1 h2
  | close a =>
    simp only [Market.step, Market.handle_close]
    split
    · split
      · split
        · exact idInv_insert_fresh m.requests m.id a h1 h2
        · exact ⟨h1, h2⟩
      · exact ⟨h1, h2⟩
    · exact ⟨h1, h2⟩
  | success i r =>
    simp only [Market.step, Market.handle_success]
    split
    · split
      · exact ⟨idInv_erase_any m.requests m.id i h1, h2⟩
      · exact ⟨idInv_erase_any m.requests m.id i h1, h2⟩
    · exact ⟨h1, h2⟩
  | error i e =>
    simp only [Market.step, Market.handle_error]
    split
    · split
      · exact ⟨idInv_erase_any m.requests m.id i h1, h2⟩
      · exact ⟨idInv_erase_any m.requests m.id i h1, h2⟩
    · exact ⟨h1, h2⟩

theorem idInv_init : IdInv Market.init := by
  constructor
  · intro i a hf
    simp [Market.init, afind?] at hf
  · norm_num [Market.init]

theorem idInv_run (m : Market) (ops : List MOp) (h : IdInv m) :
    IdInv (m.run ops).1 := by
  induction ops generalizing m with
  | nil => exact h
  | cons op rest ih => exact ih (m.step op).1 (idInv_step m op h)

/-- C5 counterexample: after `[connect, login, subscribe ["a"], close]`
the disconnected client's pending entry (id 1, from the subscribe) is still
in the table — client disconnect does not remove it — and the close-time
`UNSUBSCRIBE` even inserted a fresh entry (id 2) for the departed address. -/
theorem c5_close_keeps_pending_counterexample :
    afind? (Market.init.run c5ops).1.requests 1 = some 0 ∧
    afind? (Market.init.run c5ops).1.requests 2 = some 0 ∧
    (Market.init.run c5ops).1.txs.contains 0 = false ∧
    acontains (Market.init.run c5ops).1.subscribers 0 = false := by
  refine ⟨by decide, by decide, by decide, by decide⟩

/-- C5 (amended): every id in the pending-request table was produced by the
market's own counter (it lies in `[1, next_id)` in every reachable state,
and the counter never decreases); an entry is removed only by the matching
`Success` or `Error` reply — `handle_success`/`handle_error` erase exactly
the replied id — and `handle_close` (client disconnect) removes no pending
entry. -/
theorem c5_pending_requests_amended :
    (∀ ops : List MOp, IdInv (Market.init.run ops).1) ∧
    (∀ (m : Market) (op : MOp), m.id ≤ (m.step op).1.id) ∧
    (∀ (m : Market) (i : Int) (r : Option Int),
      (m.handle_success i r).1.requests = aerase m.requests i) ∧
    (∀ (m : Market) (i : Int) (e : ChatError),
      (m.handle_error i e).1.requests = aerase m.requests i) ∧
    (∀ (m : Market) (addr : Nat) (i : Int) (a : Nat),
      IdInv m → afind? m.requests i = some a →
      afind? (m.handle_close addr).1.requests i = some a) := by
  refine ⟨?_, ?_, ?_, ?_, ?_⟩
  · intro ops
    exact idInv_run Market.init ops idInv_init
  · intro m op
    cases op with
    | connect a => exact le_refl _
    | login a i l =>
      simp only [Market.step, Market.handle_login]
      split <;> exact le_refl _
    | subscribe a i ss =>
      simp only [Market.step, Market.handle_subscribe]
      split
      · exact le_refl _
      · split
        · exact le_refl _
        · simp [Market.send]
    | close a =>
      simp only [Market.step, Market.handle_close]
      split
      · split
        · split
          · simp [Market.send]
          · exact le_refl _
        · exact le_refl _
      · exact le_refl _
    | success i r =>
      simp only [Market.step, Market.handle_success]
      split
      · split <;> exact le_refl _
      · exact le_refl _
    | error i e =>
      simp only [Market.step, Market.handle_error]
      split
      · split <;> exact le_refl _
      · exact le_refl _
  · intro m i r
    simp only [Market.handle_success]
    split
    · split <;> rfl
    · rename_i hf
      exact (aerase_of_afind?_none m.requests i hf).symm
  · intro m i e
    simp only [Market.handle_error]
    split
    · split <;> rfl
    · rename_i hf
      exact (aerase_of_afind?_none m.requests i hf).symm
  · intro m addr i a hinv hf
    have hlt : i ≠ m.id := by
      have := hinv.1 i a hf
      omega
    simp only [Market.handle_close]
    split
    · split
      · split
        · simpa [Market.send, afind?_ainsert_ne m.requests m.id i addr hlt.symm]
            using hf
        · exact hf
      · exact hf
    · exact hf

theorem c5_pending_requests_amended_witness :
    afind? (((Market.init.run c1wops).1.handle_close 0).1.requests) 1 = some 0 := by
  have h := c5_pending_requests_amended
  exact h.2.2.2.2 (Market.init.run c1wops).1 0 1 0 (h.1 c1wops) (by decide)

/-! ## C3 — repeated subscribe from the same client -/

/-- C3 counterexample: one client sends the same subscribe request
(`btcusdt@bbo`) twice — the market sends TWO upstream `SUBSCRIBE` frames
(not one), and the second call CHANGES the refcount: since
`is_subscribed` checks the raw requested string but the renamed
`btcusdt@bookTicker` is what was recorded, the refcount of the normalized
name reaches 2 while only one subscriber holds it. -/
theorem c3_duplicate_subscribe_counterexample :
    List.countP isSubscribeFrame (Market.init.run c3ops).2 = 2 ∧
    afind? (Market.init.run c3ops).1.symbols "btcusdt@bookTicker" = some 2 ∧
    List.countP (fun p => p.2.symbols.contains "btcusdt@bookTicker")
      (Market.init.run c3ops).1.subscribers = 1 := by
  refine ⟨by decide, by decide, by decide⟩

/-- C3 (amended): when the client is already subscribed to the stream under
exactly the requested string, a second subscribe collects no symbols and
leaves every refcount unchanged — but it still sends one more upstream
`SUBSCRIBE` frame (with an empty param list and a fresh id) and records the
fresh id mapping; so duplicate subscribes are refcount-idempotent only for
streams stored under their requested form, and they are not
upstream-frame-idempotent. -/
theorem c3_resubscribe_amended (m : Market) (addr : Nat) (sub : Subscriber)
    (reqId : Int) (s : String)
    (hsub : afind? m.subscribers addr = some sub)
    (halready : sub.symbols.contains s = true) :
    m.handle_subscribe addr reqId [s] =
      ({ m with requests := ainsert m.requests m.id addr, id := m.id + 1,
                subscribers := ainsert m.subscribers addr
                  (sub.on_strategy_client_subscribe m.id reqId []) },
       [MOut.upstream "SUBSCRIBE" [] m.id]) ∧
    (m.handle_subscribe addr reqId [s]).1.symbols = m.symbols := by
  have hv : m.validate_login addr = true := by
    simp [Market.validate_login, acontains, hsub]
  have hmain :
      m.handle_subscribe addr reqId [s] =
        ({ m with requests := ainsert m.requests m.id addr, id := m.id + 1,
                  subscribers := ainsert m.subscribers addr
                    (sub.on_strategy_client_subscribe m.id reqId []) },
         [MOut.upstream "SUBSCRIBE" [] m.id]) := by
    have hmem : s ∈ sub.symbols := by simpa using halready
    simp [Market.handle_subscribe, hv, hsub, Market.collectLoop, hmem, Market.send]
  refine ⟨hmain, ?_⟩
  rw [hmain]

theorem c3_resubscribe_amended_witness :
    (Market.init.run c1wops).1.handle_subscribe 0 3 ["a"] =
      ({ (Market.init.run c1wops).1 with
          requests := ainsert (Market.init.run c1wops).1.requests
            (Market.init.run c1wops).1.id 0,
          id := (Market.init.run c1wops).1.id + 1,
          subscribers := ainsert (Market.init.run c1wops).1.subscribers 0
            ((⟨["a"], [(1, 2)]⟩ : Subscriber).on_strategy_client_subscribe
              (Market.init.run c1wops).1.id 3 []) },
       [MOut.upstream "SUBSCRIBE" [] (Market.init.run c1wops).1.id]) ∧
    ((Market.init.run c1wops).1.handle_subscribe 0 3 ["a"]).1.symbols =
      (Market.init.run c1wops).1.symbols :=
  c3_resubscribe_amended (Market.init.run c1wops).1 0 ⟨["a"], [(1, 2)]⟩ 3 "a"
    (by decide) (by decide)

/-! ## C1 — refcount invariant -/

theorem mem_of_afind? [DecidableEq α] {m : List (α × β)} {k : α} {v : β}
    (h : afind? m k = some v) : (k, v) ∈ m := by
  induction m with
  | nil => cases h
  | cons q rest ih =>
    rcases q with ⟨a, b⟩
    by_cases ha : a = k
    · subst ha
      simp only [afind?, if_true, eq_self_iff_true, Option.some.injEq] at h
      subst h
      exact List.mem_cons_self _ _
    · simp only [afind?, if_neg ha] at h
      exact List.mem_cons_of_mem _ (ih h)

theorem countP_ainsert [DecidableEq α] (m : List (α × β)) (k : α) (v : β)
    (p : α × β → Bool) :
    List.countP p (ainsert m k v) =
      (if p (k, v) then 1 else 0) + List.countP p (aerase m k) := by
  simp only [ainsert, List.countP_cons]
  cases hp : p (k, v) <;> (simp [hp]; try omega)

theorem afind?_none_of_acontains_false [DecidableEq α] {m : List (α × β)} {k : α}
    (h : acontains m k = false) : afind? m k = none := by
  cases hf : afind? m k with
  | none => rfl
  | some v => simp [acontains, hf] at h

/-- Membership in the `HashSet::extend` fold of
`Subscriber::on_strategy_client_subscribe`. -/
theorem extend_mem (base l : List String) (t : String) :
    (t ∈ l.foldl (fun acc s => if acc.contains s then acc else acc ++ [s]) base) ↔
      (t ∈ base ∨ t ∈ l) := by
  induction l generalizing base with
  | nil => simp
  | cons s rest ih =>
    simp only [List.foldl_cons]
    by_cases hs : base.contains s
    · have hsm : s ∈ base := by simpa using hs
      rw [if_pos hs, ih]
      constructor
      · rintro (h | h)
        · exact Or.inl h
        · exact Or.inr (List.mem_cons_of_mem _ h)
      · rintro (h | h)
        · exact Or.inl h
        · rcases List.mem_cons.mp h with he | hr
          · exact Or.inl (he ▸ hsm)
          · exact Or.inr hr
    · rw [if_neg hs, ih]
      simp only [List.mem_append, List.mem_cons, List.mem_singleton]
      tauto

theorem extend_nodup (base l : List String) (h : base.Nodup) :
    (l.foldl (fun acc s => if acc.contains s then acc else acc ++ [s]) base).Nodup := by
  induction l generalizing base with
  | nil => exact h
  | cons s rest ih =>
    simp only [List.foldl_cons]
    by_cases hs : base.contains s
    · rw [if_pos hs]; exact ih base h
    · rw [if_neg hs]
      apply ih
      have hsm : s ∉ base := by simpa using hs
      simp [List.nodup_append, h, hsm]

theorem bump_eq (syms : List (String × Nat)) (n : String) :
    (match afind? syms n with
     | some cnt => ainsert syms n (cnt + 1)
     | none => ainsert syms n 1) = ainsert syms n ((afind? syms n).getD 0 + 1) := by
  cases h : afind? syms n <;> simp [h]

theorem getD_ainsert (syms : List (String × Nat)) (n t : String) (v : Nat) :
    (afind? (ainsert syms n v) t).getD 0 =
      if t = n then v else (afind? syms t).getD 0 := by
  by_cases ht : t = n
  · subst ht
    simp [afind?_ainsert_self]
  · rw [if_neg ht, afind?_ainsert_ne syms n t v (fun he => ht he.symm)]

/-- Characterization of the subscribe collection loop on well-behaved
requests (duplicate-free, normalization-fixed streams): it collects exactly
the not-yet-held streams, bumps exactly their refcounts by one, and keeps
the key set duplicate-free. -/
theorem collectLoop_spec (streams : List String) (base : List String)
    (syms : List (String × Nat))
    (hnd : streams.Nodup)
    (hfix : ∀ s ∈ streams, Market.normalizeSymbol s = s) :
    (Market.collectLoop base syms streams).2 =
      streams.filter (fun s => !base.contains s) ∧
    (∀ t, (afind? (Market.collectLoop base syms streams).1 t).getD 0 =
      (afind? syms t).getD 0 +
        (if t ∈ (Market.collectLoop base syms streams).2 then 1 else 0)) ∧
    (ANodupKeys syms → ANodupKeys (Market.collectLoop base syms streams).1) := by
  induction streams generalizing syms with
  | nil => simp [Market.collectLoop]
  | cons s rest ih =>
    have hndr : rest.Nodup := hnd.of_cons
    have hsnr : s ∉ rest := (List.nodup_cons.mp hnd).1
    have hfixs : Market.normalizeSymbol s = s := hfix s (List.mem_cons_self _ _)
    have hfixr : ∀ x ∈ rest, Market.normalizeSymbol x = x :=
      fun x hx => hfix x (List.mem_cons_of_mem _ hx)
    by_cases hs : base.contains s
    · have hsm : s ∈ base := by simpa using hs
      have hloop : Market.collectLoop base syms (s :: rest) =
          Market.collectLoop base syms rest := by
        simp [Market.collectLoop, hsm]
      have hfil : (s :: rest).filter (fun x => !base.contains x) =
          rest.filter (fun x => !base.contains x) := by
        simp [List.filter_cons, hsm]
      rw [hloop, hfil]
      exact ih syms hndr hfixr
    · have hsm : s ∉ base := by simpa using hs
      have hloop : Market.collectLoop base syms (s :: rest) =
          ((Market.collectLoop base
              (ainsert syms s ((afind? syms s).getD 0 + 1)) rest).1,
           s :: (Market.collectLoop base
              (ainsert syms s ((afind? syms s).getD 0 + 1)) rest).2) := by
        simp [Market.collectLoop, hsm, hfixs, bump_eq]
      set syms' := ainsert syms s ((afind? syms s).getD 0 + 1) with hsyms'
      obtain ⟨ih1, ih2, ih3⟩ := ih syms' hndr hfixr
      have hfil : (s :: rest).filter (fun x => !base.contains x) =
          s :: rest.filter (fun x => !base.contains x) := by
        simp [List.filter_cons, hsm]
      refine ⟨?_, ?_, ?_⟩
      · rw [hloop, hfil]
        show s :: (Market.collectLoop base syms' rest).2 = _
        rw [ih1]
      · intro t
        rw [hloop]
        simp only
        have hnotin : s ∉ (Market.collectLoop base syms' rest).2 := by
          rw [ih1]
          intro hmem
          exact hsnr (List.mem_filter.mp hmem).1
        have hcount := ih2 t
        have hbump := getD_ainsert syms s t ((afind? syms s).getD 0 + 1)
        by_cases ht : t = s
        · subst ht
          simp only [if_pos rfl] at hbump
          rw [hcount, hbump]
          simp [hnotin]
        · simp only [if_neg ht] at hbump
          rw [hcount, hbump]
          have : (t ∈ s :: (Market.collectLoop base syms' rest).2) ↔
              (t ∈ (Market.collectLoop base syms' rest).2) := by
            simp [List.mem_cons, ht]
          by_cases htm : t ∈ (Market.collectLoop base syms' rest).2 <;>
            simp [htm, this]
      · intro hnk
        rw [hloop]
        exact ih3 (anodup_ainsert syms s _ hnk)

/-- Characterization of the unsubscribe loop of `handle_close` on a
duplicate-free symbol set whose members all have positive refcounts: each
held symbol's count drops by one, a count that was 1 disappears from the
map, exactly those symbols (renamed `:`→`_`) form the `UNSUBSCRIBE` batch,
and other symbols are untouched. -/
theorem closeLoop_spec (symsList : List String) (syms : List (String × Nat))
    (hnd : symsList.Nodup)
    (hge : ∀ t ∈ symsList, 1 ≤ (afind? syms t).getD 0)
    (hnk : ANodupKeys syms) :
    (∀ t, t ∉ symsList →
      afind? (Market.closeLoop syms symsList).1 t = afind? syms t) ∧
    (∀ t ∈ symsList,
      afind? (Market.closeLoop syms symsList).1 t =
        if (afind? syms t).getD 0 ≤ 1 then none
        else some ((afind? syms t).getD 0 - 1)) ∧
    ANodupKeys (Market.closeLoop syms symsList).1 ∧
    (Market.closeLoop syms symsList).2 =
      (symsList.filter (fun t => (afind? syms t).getD 0 == 1)).map
        (fun t => strReplace t ":" "_") := by
  induction symsList generalizing syms with
  | nil => simpa [Market.closeLoop] using hnk
  | cons s rest ih =>
    have hndr : rest.Nodup := hnd.of_cons
    have hsnr : s ∉ rest := (List.nodup_cons.mp hnd).1
    have hges : 1 ≤ (afind? syms s).getD 0 := hge s (List.mem_cons_self _ _)
    obtain ⟨cnt, hcnt⟩ : ∃ cnt, afind? syms s = some cnt := by
      cases hf : afind? syms s with
      | none => rw [hf] at hges; simp at hges
      | some c => exact ⟨c, rfl⟩
    have hcnt1 : 1 ≤ cnt := by rw [hcnt] at hges; simpa using hges
    by_cases hone : cnt = 1
    · subst hone
      have hloop : Market.closeLoop syms (s :: rest) =
          ((Market.closeLoop (aerase syms s) rest).1,
           strReplace s ":" "_" :: (Market.closeLoop (aerase syms s) rest).2) := by
        simp [Market.closeLoop, hcnt]
      have hger : ∀ t ∈ rest, 1 ≤ (afind? (aerase syms s) t).getD 0 := by
        intro t ht
        have hts : s ≠ t := fun he => hsnr (he ▸ ht)
        rw [afind?_aerase_ne syms s t hts]
        exact hge t (List.mem_cons_of_mem _ ht)
      obtain ⟨ih1, ih2, ih3, ih4⟩ :=
        ih (aerase syms s) hndr hger (anodup_aerase syms s hnk)
      refine ⟨?_, ?_, ?_, ?_⟩
      · intro t ht
        have hts : t ≠ s := fun he => ht (he ▸ List.mem_cons_self _ _)
        have htr : t ∉ rest := fun hr => ht (List.mem_cons_of_mem _ hr)
        rw [hloop]
        show afind? (Market.closeLoop (aerase syms s) rest).1 t = _
        rw [ih1 t htr, afind?_aerase_ne syms s t (fun he => hts he.symm)]
      · intro t ht
        rcases List.mem_cons.mp ht with he | hr
        · subst he
          rw [hloop]
          show afind? (Market.closeLoop (aerase syms t) rest).1 t = _
          rw [ih1 t hsnr, afind?_aerase_self, hcnt]
          simp
        · have hts : s ≠ t := fun he => hsnr (he ▸ hr)
          rw [hloop]
          show afind? (Market.closeLoop (aerase syms s) rest).1 t = _
          rw [ih2 t hr, afind?_aerase_ne syms s t hts]
      · rw [hloop]
        exact ih3
      · rw [hloop]
        show strReplace s ":" "_" :: (Market.closeLoop (aerase syms s) rest).2 = _
        have hfil : (s :: rest).filter (fun t => (afind? syms t).getD 0 == 1) =
            s :: rest.filter (fun t => (afind? syms t).getD 0 == 1) := by
          simp [List.filter_cons, hcnt]
        have hsame : rest.filter (fun t => (afind? (aerase syms s) t).getD 0 == 1) =
            rest.filter (fun t => (afind? syms t).getD 0 == 1) := by
          apply List.filter_congr
          intro t ht
          have hts : s ≠ t := fun he => hsnr (he ▸ ht)
          rw [afind?_aerase_ne syms s t hts]
        rw [ih4, hsame, hfil, List.map_cons]
    · have hne : ¬(cnt - 1 = 0) := by omega
      have hloop : Market.closeLoop syms (s :: rest) =
          Market.closeLoop (ainsert syms s (cnt - 1)) rest := by
        simp [Market.closeLoop, hcnt, hne]
      have hger : ∀ t ∈ rest, 1 ≤ (afind? (ainsert syms s (cnt - 1)) t).getD 0 := by
        intro t ht
        have hts : s ≠ t := fun he => hsnr (he ▸ ht)
        rw [afind?_ainsert_ne syms s t (cnt - 1) hts]
        exact hge t (List.mem_cons_of_mem _ ht)
      obtain ⟨ih1, ih2, ih3, ih4⟩ :=
        ih (ainsert syms s (cnt - 1)) hndr hger (anodup_ainsert syms s (cnt - 1) hnk)
      refine ⟨?_, ?_, ?_, ?_⟩
      · intro t ht
        have hts : t ≠ s := fun he => ht (he ▸ List.mem_cons_self _ _)
        have htr : t ∉ rest := fun hr => ht (List.mem_cons_of_mem _ hr)
        rw [hloop, ih1 t htr,
          afind?_ainsert_ne syms s t (cnt - 1) (fun he => hts he.symm)]
      · intro t ht
        rcases List.mem_cons.mp ht with he | hr
        · subst he
          rw [hloop, ih1 t hsnr, afind?_ainsert_self, hcnt]
          have hgt : ¬((cnt : Nat) ≤ 1) := by omega
          simp [hgt]
        · have hts : s ≠ t := fun he => hsnr (he ▸ hr)
          rw [hloop, ih2 t hr, afind?_ainsert_ne syms s t (cnt - 1) hts]
      · rw [hloop]
        exact ih3
      · have hfil : (s :: rest).filter (fun t => (afind? syms t).getD 0 == 1) =
            rest.filter (fun t => (afind? syms t).getD 0 == 1) := by
          have : ((afind? syms s).getD 0 == 1) = false := by
            rw [hcnt]
            simpa using hone
          simp [List.filter_cons, this]
        have hsame : rest.filter
              (fun t => (afind? (ainsert syms s (cnt - 1)) t).getD 0 == 1) =
            rest.filter (fun t => (afind? syms t).getD 0 == 1) := by
          apply List.filter_congr
          intro t ht
          have hts : s ≠ t := fun he => hsnr (he ▸ ht)
          rw [afind?_ainsert_ne syms s t (cnt - 1) hts]
        rw [hloop, ih4, hsame, hfil]

theorem contains_iff (l : List String) (t : String) :
    l.contains t = true ↔ t ∈ l := by simp

theorem wf3_ainsert (subs : List (Nat × Subscriber)) (k : Nat) (v : Subscriber)
    (h3 : ∀ p ∈ subs, p.2.symbols.Nodup) (hv : v.symbols.Nodup) :
    ∀ p ∈ ainsert subs k v, p.2.symbols.Nodup := by
  intro p hp
  rcases List.mem_cons.mp hp with he | hp2
  · subst he; exact hv
  · exact h3 p (mem_of_mem_aerase hp2)

theorem on_exchange_response_symbols (sub : Subscriber) (addr : Nat)
    (respId : Int) (result : Option Int) :
    (Market.on_exchange_response sub addr respId result).1.symbols = sub.symbols := by
  cases h : afind? sub.exchange_reqid_to_client_reqid respId <;>
    simp [Market.on_exchange_response, h]

theorem on_exchange_error_symbols (sub : Subscriber) (addr : Nat)
    (respId : Int) (e : ChatError) :
    (Market.on_exchange_error sub addr respId e).1.symbols = sub.symbols := by
  cases h : afind? sub.exchange_reqid_to_client_reqid respId <;>
    simp [Market.on_exchange_error, h]

theorem holders_ainsert_same_symbols (subs : List (Nat × Subscriber)) (a : Nat)
    (sub newSub : Subscriber) (t : String)
    (hw : ANodupKeys subs) (hfind : afind? subs a = some sub)
    (hsym : newSub.symbols = sub.symbols) :
    List.countP (fun p => p.2.symbols.contains t) (ainsert subs a newSub) =
      List.countP (fun p => p.2.symbols.contains t) subs := by
  rw [countP_ainsert,
    countP_aerase subs a sub (fun p => p.2.symbols.contains t) hw hfind]
  simp [hsym]

theorem c1_login_preserves (m : Market) (a : Nat) (reqId : Int) (l : Login)
    (hwf : MarketWF m) (hri : RefInv m) :
    MarketWF (m.handle_login a reqId l).1 ∧ RefInv (m.handle_login a reqId l).1 := by
  obtain ⟨hw1, hw2, hw3⟩ := hwf
  by_cases hctx : a ∈ m.txs
  · by_cases hcsub : acontains m.subscribers a = true
    · have hform : (m.handle_login a reqId l).1 = m := by
        simp [Market.handle_login, hctx, hcsub]
      rw [hform]
      exact ⟨⟨hw1, hw2, hw3⟩, hri⟩
    · have hcs : acontains m.subscribers a = false := by simpa using hcsub
      have hform : (m.handle_login a reqId l).1 =
          { m with subscribers := ainsert m.subscribers a Subscriber.new } := by
        simp [Market.handle_login, hctx, hcs]
      have hnone : afind? m.subscribers a = none :=
        afind?_none_of_acontains_false hcs
      rw [hform]
      constructor
      · refine ⟨anodup_ainsert _ _ _ hw1, hw2,
          wf3_ainsert _ _ _ hw3 List.nodup_nil⟩
      · intro t
        show (afind? m.symbols t).getD 0 =
          List.countP (fun p => p.2.symbols.contains t)
            (ainsert m.subscribers a Subscriber.new)
        rw [countP_ainsert, aerase_of_afind?_none _ _ hnone]
        have hold := hri t
        unfold refcount holders at hold
        rw [hold]
        simp [Subscriber.new]
  · have hform : (m.handle_login a reqId l).1 = m := by
      simp [Market.handle_login, hctx]
    rw [hform]
    exact ⟨⟨hw1, hw2, hw3⟩, hri⟩

theorem c1_subscribe_preserves (m : Market) (a : Nat) (reqId : Int)
    (streams : List String)
    (hnd : streams.Nodup) (hfix : ∀ s ∈ streams, Market.normalizeSymbol s = s)
    (hwf : MarketWF m) (hri : RefInv m) :
    MarketWF (m.handle_subscribe a reqId streams).1 ∧
      RefInv (m.handle_subscribe a reqId streams).1 := by
  obtain ⟨hw1, hw2, hw3⟩ := hwf
  by_cases hval : m.validate_login a = true
  · obtain ⟨sub, hs⟩ : ∃ sub, afind? m.subscribers a = some sub := by
      unfold Market.validate_login acontains at hval
      cases hf : afind? m.subscribers a with
      | none => rw [hf] at hval; cases hval
      | some v => exact ⟨v, rfl⟩
    have hform : (m.handle_subscribe a reqId streams).1 =
        { m with
          symbols := (Market.collectLoop sub.symbols m.symbols streams).1,
          requests := ainsert m.requests m.id a,
          id := m.id + 1,
          subscribers := ainsert m.subscribers a
            (sub.on_strategy_client_subscribe m.id reqId
              (Market.collectLoop sub.symbols m.symbols streams).2) } := by
      simp [Market.handle_subscribe, hval, hs, Market.send]
    obtain ⟨spec1, spec2, spec3⟩ :=
      collectLoop_spec streams sub.symbols m.symbols hnd hfix
    have hsubmem : (a, sub) ∈ m.subscribers := mem_of_afind? hs
    have hsubnd : sub.symbols.Nodup := hw3 (a, sub) hsubmem
    rw [hform]
    constructor
    · refine ⟨anodup_ainsert _ _ _ hw1, spec3 hw2, ?_⟩
      apply wf3_ainsert _ _ _ hw3
      exact extend_nodup sub.symbols _ hsubnd
    · intro t
      have hold : (afind? m.symbols t).getD 0 =
          (if sub.symbols.contains t then 1 else 0) +
            List.countP (fun p => p.2.symbols.contains t)
              (aerase m.subscribers a) := by
        have h := hri t
        unfold refcount holders at h
        rw [countP_aerase m.subscribers a sub
          (fun p => p.2.symbols.contains t) hw1 hs] at h
        exact h
      have hcount := spec2 t
      have hmemnew : (t ∈ (sub.on_strategy_client_subscribe m.id reqId
          (Market.collectLoop sub.symbols m.symbols streams).2).symbols) ↔
          (t ∈ sub.symbols ∨
            t ∈ (Market.collectLoop sub.symbols m.symbols streams).2) := by
        simp only [Subscriber.on_strategy_client_subscribe]
        exact extend_mem _ _ _
      have hnotboth : t ∈ (Market.collectLoop sub.symbols m.symbols streams).2 →
          t ∉ sub.symbols := by
        intro hmem
        rw [spec1] at hmem
        have := (List.mem_filter.mp hmem).2
        simpa using this
      show (afind? (Market.collectLoop sub.symbols m.symbols streams).1 t).getD 0 =
        List.countP (fun p => p.2.symbols.contains t)
          (ainsert m.subscribers a
            (sub.on_strategy_client_subscribe m.id reqId
              (Market.collectLoop sub.symbols m.symbols streams).2))
      rw [countP_ainsert]
      dsimp only
      rw [hcount, hold]
      by_cases hA : t ∈ sub.symbols <;>
        by_cases hB : t ∈ (Market.collectLoop sub.symbols m.symbols streams).2
      · exact absurd hA (hnotboth hB)
      · have hAc : sub.symbols.contains t = true := (contains_iff _ _).mpr hA
        have hNc : ((sub.on_strategy_client_subscribe m.id reqId
            (Market.collectLoop sub.symbols m.symbols streams).2).symbols.contains t)
            = true := (contains_iff _ _).mpr (hmemnew.mpr (Or.inl hA))
        simp only [hAc, hNc, eq_self_iff_true, if_true]
        rw [if_neg hB]
        omega
      · have hAc : sub.symbols.contains t = false := by simp [hA]
        have hNc : ((sub.on_strategy_client_subscribe m.id reqId
            (Market.collectLoop sub.symbols m.symbols streams).2).symbols.contains t)
            = true := (contains_iff _ _).mpr (hmemnew.mpr (Or.inr hB))
        simp only [hAc, hNc, Bool.false_eq_true, if_false,
          eq_self_iff_true, if_true]
        rw [if_pos hB]
        omega
      · have hAc : sub.symbols.contains t = false := by simp [hA]
        have hNc : ((sub.on_strategy_client_subscribe m.id reqId
            (Market.collectLoop sub.symbols m.symbols streams).2).symbols.contains t)
            = false := by
          rcases hcn : ((sub.on_strategy_client_subscribe m.id reqId
              (Market.collectLoop sub.symbols m.symbols streams).2).symbols.contains t)
            with _ | _
          · rfl
          · exact absurd ((hmemnew.mp ((contains_iff _ _).mp hcn)).resolve_left hA)
              hB
        simp only [hAc, hNc, Bool.false_eq_true, if_false]
        rw [if_neg hB]
        omega
  · have hvf : m.validate_login a = false := by simpa using hval
    have hform : (m.handle_subscribe a reqId streams).1 = m := by
      simp [Market.handle_subscribe, hvf]
    rw [hform]
    exact ⟨⟨hw1, hw2, hw3⟩, hri⟩

theorem c1_close_preserves (m : Market) (a : Nat)
    (hwf : MarketWF m) (hri : RefInv m) :
    MarketWF (m.handle_close a).1 ∧ RefInv (m.handle_close a).1 := by
  obtain ⟨hw1, hw2, hw3⟩ := hwf
  by_cases hc : m.txs.contains a = true
  · have hcm : a ∈ m.txs := by simpa using hc
    cases hs : afind? m.subscribers a with
    | none =>
      have hform : (m.handle_close a).1 = { m with txs := m.txs.erase a } := by
        simp [Market.handle_close, hcm, hs]
      rw [hform]
      exact ⟨⟨hw1, hw2, hw3⟩, hri⟩
    | some sub =>
      have hsubmem : (a, sub) ∈ m.subscribers := mem_of_afind? hs
      have hsubnd : sub.symbols.Nodup := hw3 (a, sub) hsubmem
      have hge : ∀ t ∈ sub.symbols, 1 ≤ (afind? m.symbols t).getD 0 := by
        intro t ht
        have hold := hri t
        unfold refcount holders at hold
        rw [countP_aerase m.subscribers a sub _ hw1 hs] at hold
        have : sub.symbols.contains t = true := (contains_iff _ _).mpr ht
        rw [hold, this]
        simp
      obtain ⟨spec1, spec2, spec3, spec4⟩ :=
        closeLoop_spec sub.symbols m.symbols hsubnd hge hw2
      have hproj : (m.handle_close a).1.subscribers = aerase m.subscribers a ∧
          (m.handle_close a).1.symbols =
            (Market.closeLoop m.symbols sub.symbols).1 := by
        by_cases hne : (Market.closeLoop m.symbols sub.symbols).2 = []
        · have hform : (m.handle_close a).1 =
              { m with txs := m.txs.erase a,
                       subscribers := aerase m.subscribers a,
                       symbols := (Market.closeLoop m.symbols sub.symbols).1 } := by
            simp [Market.handle_close, hcm, hs, hne]
          rw [hform]
          exact ⟨rfl, rfl⟩
        · have hform : (m.handle_close a).1 =
              { m with txs := m.txs.erase a,
                       subscribers := aerase m.subscribers a,
                       symbols := (Market.closeLoop m.symbols sub.symbols).1,
                       requests := ainsert m.requests m.id a,
                       id := m.id + 1 } := by
            simp [Market.handle_close, hcm, hs, hne, Market.send]
          rw [hform]
          exact ⟨rfl, rfl⟩
      constructor
      · refine ⟨?_, ?_, ?_⟩
        · rw [hproj.1]; exact anodup_aerase _ _ hw1
        · unfold ANodupKeys akeys at spec3 ⊢
          rw [hproj.2]; exact spec3
        · rw [hproj.1]
          intro p hp
          exact hw3 p (mem_of_mem_aerase hp)
      · intro t
        unfold refcount holders
        rw [hproj.1, hproj.2]
        have hold := hri t
        unfold refcount holders at hold
        rw [countP_aerase m.subscribers a sub _ hw1 hs] at hold
        by_cases ht : t ∈ sub.symbols
        · have hcontains : sub.symbols.contains t = true := (contains_iff _ _).mpr ht
          have hspec := spec2 t ht
          have hge1 : 1 ≤ (afind? m.symbols t).getD 0 := hge t ht
          rw [hspec]
          rw [hcontains] at hold
          simp only [if_true] at hold
          by_cases hle : (afind? m.symbols t).getD 0 ≤ 1
          · rw [if_pos hle]
            simp only [Option.getD_none]
            omega
          · rw [if_neg hle]
            simp only [Option.getD_some]
            omega
        · have hcontains : sub.symbols.contains t = false := by simp [ht]
          rw [spec1 t ht]
          rw [hcontains] at hold
          simp only [if_false, Bool.false_eq_true] at hold
          omega
  · have hcm : a ∉ m.txs := by simpa using hc
    have hform : (m.handle_close a).1 = m := by
      simp [Market.handle_close, hcm]
    rw [hform]
    exact ⟨⟨hw1, hw2, hw3⟩, hri⟩

theorem c1_success_preserves (m : Market) (i : Int) (r : Option Int)
    (hwf : MarketWF m) (hri : RefInv m) :
    MarketWF (m.handle_success i r).1 ∧ RefInv (m.handle_success i r).1 := by
  obtain ⟨hw1, hw2, hw3⟩ := hwf
  cases hf : afind? m.requests i with
  | none =>
    have hform : (m.handle_success i r).1 = m := by
      simp [Market.handle_success, hf]
    rw [hform]
    exact ⟨⟨hw1, hw2, hw3⟩, hri⟩
  | some index =>
    cases hss : afind? m.subscribers index with
    | none =>
      have hform : (m.handle_success i r).1 =
          { m with requests := aerase m.requests i } := by
        simp [Market.handle_success, hf, hss]
      rw [hform]
      exact ⟨⟨hw1, hw2, hw3⟩, hri⟩
    | some sub =>
      have hform : (m.handle_success i r).1 =
          { m with requests := aerase m.requests i,
                   subscribers := ainsert m.subscribers index
                     (Market.on_exchange_response sub index i r).1 } := by
        simp [Market.handle_success, hf, hss]
      have hsym := on_exchange_response_symbols sub index i r
      rw [hform]
      constructor
      · refine ⟨anodup_ainsert _ _ _ hw1, hw2, ?_⟩
        apply wf3_ainsert _ _ _ hw3
        rw [hsym]
        exact hw3 (index, sub) (mem_of_afind? hss)
      · intro t
        show (afind? m.symbols t).getD 0 =
          List.countP (fun p => p.2.symbols.contains t)
            (ainsert m.subscribers index (Market.on_exchange_response sub index i r).1)
        rw [holders_ainsert_same_symbols m.subscribers index sub _ t hw1 hss hsym]
        exact hri t

theorem c1_error_preserves (m : Market) (i : Int) (e : ChatError)
    (hwf : MarketWF m) (hri : RefInv m) :
    MarketWF (m.handle_error i e).1 ∧ RefInv (m.handle_error i e).1 := by
  obtain ⟨hw1, hw2, hw3⟩ := hwf
  cases hf : afind? m.requests i with
  | none =>
    have hform : (m.handle_error i e).1 = m := by
      simp [Market.handle_error, hf]
    rw [hform]
    exact ⟨⟨hw1, hw2, hw3⟩, hri⟩
  | some index =>
    cases hss : afind? m.subscribers index with
    | none =>
      have hform : (m.handle_error i e).1 =
          { m with requests := aerase m.requests i } := by
        simp [Market.handle_error, hf, hss]
      rw [hform]
      exact ⟨⟨hw1, hw2, hw3⟩, hri⟩
    | some sub =>
      have hform : (m.handle_error i e).1 =
          { m with requests := aerase m.requests i,
                   subscribers := ainsert m.subscribers index
                     (Market.on_exchange_error sub index i e).1 } := by
        simp [Market.handle_error, hf, hss]
      have hsym := on_exchange_error_symbols sub index i e
      rw [hform]
      constructor
      · refine ⟨anodup_ainsert _ _ _ hw1, hw2, ?_⟩
        apply wf3_ainsert _ _ _ hw3
        rw [hsym]
        exact hw3 (index, sub) (mem_of_afind? hss)
      · intro t
        show (afind? m.symbols t).getD 0 =
          List.countP (fun p => p.2.symbols.contains t)
            (ainsert m.subscribers index (Market.on_exchange_error sub index i e).1)
        rw [holders_ainsert_same_symbols m.subscribers index sub _ t hw1 hss hsym]
        exact hri t

theorem c1_step_preserves (m : Market) (op : MOp) (hgood : goodOp op = true)
    (hwf : MarketWF m) (hri : RefInv m) :
    MarketWF (m.step op).1 ∧ RefInv (m.step op).1 := by
  cases op with
  | connect a => exact ⟨hwf, hri⟩
  | login a i l => exact c1_login_preserves m a i l hwf hri
  | subscribe a i ss =>
    simp only [goodOp, Bool.and_eq_true, decide_eq_true_eq,
      List.all_eq_true] at hgood
    refine c1_subscribe_preserves m a i ss hgood.1 ?_ hwf hri
    intro s hsm
    have := hgood.2 s hsm
    simpa using this
  | close a => exact c1_close_preserves m a hwf hri
  | success i r => exact c1_success_preserves m i r hwf hri
  | error i e => exact c1_error_preserves m i e hwf hri

theorem c1_run_preserves (ops : List MOp) (m : Market)
    (hgood : ∀ op ∈ ops, goodOp op = true)
    (hwf : MarketWF m) (hri : RefInv m) :
    MarketWF (m.run ops).1 ∧ RefInv (m.run ops).1 := by
  induction ops generalizing m with
  | nil => exact ⟨hwf, hri⟩
  | cons op rest ih =>
    have hstep := c1_step_preserves m op (hgood op (List.mem_cons_self _ _)) hwf hri
    exact ih (m.step op).1 (fun o ho => hgood o (List.mem_cons_of_mem _ ho))
      hstep.1 hstep.2

theorem marketWF_init : MarketWF Market.init := by
  refine ⟨List.nodup_nil, List.nodup_nil, ?_⟩
  intro p hp
  cases hp

theorem refInv_init : RefInv Market.init := by
  intro t
  rfl

theorem c1_close_zero (m : Market) (a : Nat) (sub : Subscriber) (t : String)
    (hwf : MarketWF m) (hri : RefInv m)
    (hc : m.txs.contains a = true)
    (hs : afind? m.subscribers a = some sub)
    (ht : t ∈ sub.symbols) (h1 : refcount m t = 1) :
    afind? (m.handle_close a).1.symbols t = none ∧
    ∃ params i, (m.handle_close a).2 = [MOut.upstream "UNSUBSCRIBE" params i] ∧
      strReplace t ":" "_" ∈ params := by
  obtain ⟨hw1, hw2, hw3⟩ := hwf
  have hsubnd : sub.symbols.Nodup := hw3 (a, sub) (mem_of_afind? hs)
  have hge : ∀ u ∈ sub.symbols, 1 ≤ (afind? m.symbols u).getD 0 := by
    intro u hu
    have hold := hri u
    unfold refcount holders at hold
    rw [countP_aerase m.subscribers a sub _ hw1 hs] at hold
    have : sub.symbols.contains u = true := (contains_iff _ _).mpr hu
    rw [hold, this]
    simp
  obtain ⟨spec1, spec2, spec3, spec4⟩ :=
    closeLoop_spec sub.symbols m.symbols hsubnd hge hw2
  have htmem : strReplace t ":" "_" ∈ (Market.closeLoop m.symbols sub.symbols).2 := by
    rw [spec4]
    apply List.mem_map.mpr
    refine ⟨t, ?_, rfl⟩
    apply List.mem_filter.mpr
    refine ⟨ht, ?_⟩
    unfold refcount at h1
    simp [h1]
  have hne : (Market.closeLoop m.symbols sub.symbols).2 ≠ [] := by
    intro hnil
    rw [hnil] at htmem
    cases htmem
  have hcm : a ∈ m.txs := by simpa using hc
  have hout : (m.handle_close a).2 =
      [MOut.upstream "UNSUBSCRIBE" (Market.closeLoop m.symbols sub.symbols).2 m.id] := by
    simp [Market.handle_close, hcm, hs, hne, Market.send]
  have hsymb : (m.handle_close a).1.symbols =
      (Market.closeLoop m.symbols sub.symbols).1 := by
    simp [Market.handle_close, hcm, hs, hne, Market.send]
  constructor
  · rw [hsymb, spec2 t ht]
    unfold refcount at h1
    rw [h1]
    simp
  · exact ⟨(Market.closeLoop m.symbols sub.symbols).2, m.id, hout, htmem⟩

/-- C1 counterexample: a single subscribe request whose params repeat the
same stream (`["a", "a"]`) bumps the refcount twice — `is_subscribed` is
checked against the subscriber's set, which is only extended after the
loop — leaving `symbol_refcounts["a"] = 2` while exactly one subscriber
holds `"a"`; the spec's invariant `symbol_refcounts[s] = |{a : s ∈
subscribers[a].symbols}|` is violated. -/
theorem c1_refcount_counterexample :
    afind? (Market.init.run c1ops).1.symbols "a" = some 2 ∧
    List.countP (fun p => p.2.symbols.contains "a")
      (Market.init.run c1ops).1.subscribers = 1 := by
  refine ⟨by decide, by decide⟩

/-- C1 (amended): over every operation sequence whose subscribe requests
are duplicate-free and use streams the symbol rewrite leaves unchanged,
the refcount invariant holds in every reachable state: `symbol_refcounts[s]`
equals the number of subscribers holding `s`; and in any well-formed state
satisfying the invariant, closing a client whose symbol `t` has refcount 1
removes `t` from the map and sends one upstream `UNSUBSCRIBE` batch
containing `t` (with `:` replaced by `_`). -/
theorem c1_refcount_invariant_amended (ops : List MOp)
    (hgood : ops.all goodOp = true) :
    RefInv (Market.init.run ops).1 ∧
    (∀ (m : Market) (addr : Nat) (sub : Subscriber) (t : String),
      MarketWF m → RefInv m → m.txs.contains addr = true →
      afind? m.subscribers addr = some sub → t ∈ sub.symbols →
      refcount m t = 1 →
      afind? (m.handle_close addr).1.symbols t = none ∧
      ∃ params i, (m.handle_close addr).2 =
          [MOut.upstream "UNSUBSCRIBE" params i] ∧
        strReplace t ":" "_" ∈ params) := by
  constructor
  · have hgood' : ∀ op ∈ ops, goodOp op = true := by
      intro op hop
      exact List.all_eq_true.mp hgood op hop
    exact (c1_run_preserves ops Market.init hgood' marketWF_init refInv_init).2
  · intro m addr sub t hwf hri hc hs ht h1
    exact c1_close_zero m addr sub t hwf hri hc hs ht h1

theorem c1_refcount_invariant_amended_witness :
    RefInv (Market.init.run c1wops).1 ∧
    afind? (((Market.init.run c1wops).1.handle_close 0).1.symbols) "a" = none := by
  have h := c1_refcount_invariant_amended c1wops (by decide)
  refine ⟨h.1, ?_⟩
  refine (h.2 (Market.init.run c1wops).1 0 ⟨["a"], [(1, 2)]⟩ "a"
    ?_ h.1 (by decide) (by decide) (by decide) (by decide)).1
  refine ⟨?_, ?_, ?_⟩
  · show ((Market.init.run c1wops).1.subscribers.map Prod.fst).Nodup
    decide
  · show ((Market.init.run c1wops).1.symbols.map Prod.fst).Nodup
    decide
  · decide

end CryptoFlow
